import Mathlib

/-!
Verification of the goverage coverage-profile merge tool.

The development shallowly embeds the two revisions of the program that are
present in the sources:

* `Goverage.V1` embeds `src/main.go`: the in-memory, positional
  `mergeProfiles` over already-parsed profiles, together with `dumpcp`.
* `Goverage.V3` embeds `src/unnamed/part_000`: the current revision, whose
  `mergeProfiles` concatenates the raw profile texts after checking each
  file's `mode:` header, and delegates parsing to the external collaborator
  `golang.org/x/tools/cover` (modelled from the spec, because that library
  is not part of this repository).

Go `int` fields of `cover.ProfileBlock` (line/column numbers, statement
counts, coverage counts) are modelled as `Nat`: every value observed in a
coverage profile produced or consumed by the program is non-negative, and
no operation of the program relies on wrap-around.
-/

namespace Goverage

/-- One block of `cover.Profile` (`golang.org/x/tools/cover.ProfileBlock`):
a source span with a statement count and a coverage count. -/
structure ProfileBlock where
  StartLine : Nat
  StartCol : Nat
  EndLine : Nat
  EndCol : Nat
  NumStmt : Nat
  Count : Nat
deriving DecidableEq, Repr

/-- `golang.org/x/tools/cover.Profile`: coverage data of one file — the
file name, the accumulation mode and the ordered block list. -/
structure Profile where
  FileName : String
  Mode : String
  Blocks : List ProfileBlock
deriving DecidableEq, Repr

/-- The position-and-statement-count part of a block: everything except the
coverage count. -/
structure BlockShape where
  StartLine : Nat
  StartCol : Nat
  EndLine : Nat
  EndCol : Nat
  NumStmt : Nat
deriving DecidableEq, Repr

/-- Shape of a block: its span and statement count. -/
def shapeOfBlock (b : ProfileBlock) : BlockShape :=
  ⟨b.StartLine, b.StartCol, b.EndLine, b.EndCol, b.NumStmt⟩

/-- Rebuild a block from its shape and a coverage count. -/
def mkBlock (s : BlockShape) (c : Nat) : ProfileBlock :=
  ⟨s.StartLine, s.StartCol, s.EndLine, s.EndCol, s.NumStmt, c⟩

/-- Shape of a profile: its file name, mode, and block shapes — everything
except the coverage counts. -/
def shapeOf (p : Profile) : String × String × List BlockShape :=
  (p.FileName, p.Mode, p.Blocks.map shapeOfBlock)

/-- The coverage counts of a profile, in block order. -/
def countsOf (p : Profile) : List Nat :=
  p.Blocks.map ProfileBlock.Count

theorem mkBlock_shapeOfBlock (b : ProfileBlock) : mkBlock (shapeOfBlock b) b.Count = b := rfl

theorem block_eq_of_shape_count {a b : ProfileBlock}
    (hs : shapeOfBlock a = shapeOfBlock b) (hc : a.Count = b.Count) : a = b := by
  cases a; cases b
  simp [shapeOfBlock, mkBlock] at hs ⊢
  exact ⟨hs.1, hs.2.1, hs.2.2.1, hs.2.2.2.1, hs.2.2.2.2, hc⟩

theorem blocks_eq_of_shape_count : ∀ {bs cs : List ProfileBlock},
    bs.map shapeOfBlock = cs.map shapeOfBlock →
    bs.map ProfileBlock.Count = cs.map ProfileBlock.Count → bs = cs
  | [], [], _, _ => rfl
  | b :: bs, c :: cs, hs, hc => by
    simp only [List.map_cons, List.cons.injEq] at hs hc
    exact List.cons_eq_cons.mpr
      ⟨block_eq_of_shape_count hs.1 hc.1, blocks_eq_of_shape_count hs.2 hc.2⟩
  | [], _ :: _, hs, _ => by simp at hs
  | _ :: _, [], hs, _ => by simp at hs

theorem profile_eq_of_shape_counts {p q : Profile}
    (hs : shapeOf p = shapeOf q) (hc : countsOf p = countsOf q) : p = q := by
  cases p; cases q
  simp only [shapeOf, countsOf, Prod.mk.injEq] at hs hc
  simp [hs.1, hs.2.1, blocks_eq_of_shape_count hs.2.2 hc]

theorem profiles_eq_of_shape_counts : ∀ {ps qs : List Profile},
    ps.map shapeOf = qs.map shapeOf → ps.map countsOf = qs.map countsOf → ps = qs
  | [], [], _, _ => rfl
  | p :: ps, q :: qs, hs, hc => by
    simp only [List.map_cons, List.cons.injEq] at hs hc
    exact List.cons_eq_cons.mpr
      ⟨profile_eq_of_shape_counts hs.1 hc.1, profiles_eq_of_shape_counts hs.2 hc.2⟩
  | [], _ :: _, hs, _ => by simp at hs
  | _ :: _, [], hs, _ => by simp at hs

namespace V1

/-- One step of the merge switch in `src/main.go` lines 171-176: combine a
destination count with a source count according to the accumulation mode.
`set` uses bitwise or (Go `|=`), `count` and `atomic` use addition
(Go `+=`), and any other mode leaves the destination unchanged (the Go
`switch` has no `default` case). -/
def mergeCount (mode : String) (dst src : Nat) : Nat :=
  if mode = "set" then dst ||| src
  else if mode = "count" ∨ mode = "atomic" then dst + src
  else dst

/-- The inner block loop of `src/main.go` `mergeProfiles` (lines 170-177):
for each index `j` of `src`, `dst[j].Count` is combined with
`src[j].Count`. Indexing `dst[j]` past the end of `dst` is a Go runtime
panic, modelled as `none`. -/
def mergeBlocks (mode : String) : List ProfileBlock → List ProfileBlock →
    Option (List ProfileBlock)
  | dst, [] => some dst
  | [], _ :: _ => none
  | d :: ds, s :: ss =>
    (mergeBlocks mode ds ss).map
      (fun r => { d with Count := mergeCount mode d.Count s.Count } :: r)

/-- Fold the profile at index `i` of the first run across the remaining
runs (`src/main.go` lines 165-178): empty runs are skipped
(`[no test files]`); for a non-empty run, `cps[i]` is taken — out of
range is a panic, modelled as `none` — and its blocks are merged in. -/
def mergeAcross (i : Nat) : Profile → List (List Profile) → Option Profile
  | p, [] => some p
  | p, cps :: rest =>
    if cps.isEmpty then mergeAcross i p rest
    else
      match cps.get? i with
      | none => none
      | some cp =>
        match mergeBlocks p.Mode p.Blocks cp.Blocks with
        | none => none
        | some bs => mergeAcross i { p with Blocks := bs } rest

/-- The outer loop of `src/main.go` `mergeProfiles` (line 164): every
profile of the first non-empty run, at its index, is folded across the
remaining runs. -/
def mergeEach (rest : List (List Profile)) : Nat → List Profile →
    Option (List Profile)
  | _, [] => some []
  | i, p :: ps => do
    let p' ← mergeAcross i p rest
    let ps' ← mergeEach rest (i + 1) ps
    pure (p' :: ps')

/-- Drop the leading empty runs (`src/main.go` lines 151-157). -/
def dropLeadingEmpty : List (List Profile) → List (List Profile)
  | [] => []
  | cps :: rest => if cps.isEmpty then dropLeadingEmpty rest else cps :: rest

/-- The dispatch of `src/main.go` `mergeProfiles` after head-skipping
(lines 158-180): no runs yields `nil`, one run is returned as is, and
otherwise the first run is merged with the rest. -/
def mergeTail : List (List Profile) → Option (List Profile)
  | [] => some []
  | [cps] => some cps
  | result :: rest => mergeEach rest 0 result

/-- `src/main.go` `mergeProfiles` (lines 149-181). The head-skipping loop
leaves `cpss` unchanged when every run is empty (the loop never breaks),
and otherwise drops the runs before the first non-empty one. `none`
models a runtime panic (index out of range); the Go function has no error
return value. -/
def mergeProfiles (cpss : List (List Profile)) : Option (List Profile) :=
  mergeTail (if cpss.all List.isEmpty then cpss else dropLeadingEmpty cpss)

/-- Default profile used by the `getD`-based observation functions. -/
def dProfile : Profile := ⟨"", "", []⟩

/-- Default block used by the `getD`-based observation functions. -/
def dBlock : ProfileBlock := ⟨0, 0, 0, 0, 0, 0⟩

/-- Combination of one destination block with one source block: the
position fields of the destination are kept, the counts are combined by
the mode rule. -/
def combineBlock (m : String) (d s : ProfileBlock) : ProfileBlock :=
  { d with Count := mergeCount m d.Count s.Count }

/-- Combination of one destination profile with one source profile,
block by block. -/
def combineProfile (p q : Profile) : Profile :=
  { p with Blocks := List.zipWith (combineBlock p.Mode) p.Blocks q.Blocks }

/-- The profiles found at index `i` of each non-empty run. -/
def profilesAt (i : Nat) : List (List Profile) → List Profile
  | [] => []
  | r :: rest =>
    if r.isEmpty then profilesAt i rest
    else
      match r.get? i with
      | some cp => cp :: profilesAt i rest
      | none => profilesAt i rest

/-- Row-by-row specification of the merge: the profile at index `i + k` of
the first run is folded with the profiles at index `i + k` of the other
runs. -/
def mergeRows (rs : List (List Profile)) : Nat → List Profile → List Profile
  | _, [] => []
  | i, p :: ps => List.foldl combineProfile p (profilesAt i rs) :: mergeRows rs (i + 1) ps

/-- The non-empty runs of a collection, in order. -/
def nonEmptyRuns (cpss : List (List Profile)) : List (List Profile) :=
  cpss.filter (fun r => !r.isEmpty)

/-- Specification of the merge as a fold over the non-empty runs. -/
def mergeFold (runs : List (List Profile)) : List Profile :=
  match runs with
  | [] => []
  | r₀ :: rs => mergeRows rs 0 r₀

/-- The count of block `j` of a profile. -/
def countAt (p : Profile) (j : Nat) : Nat :=
  ((p.Blocks.get? j).getD dBlock).Count

/-- The count of block `j` of the profile at index `i`. -/
def blockCountAt (ps : List Profile) (i j : Nat) : Nat :=
  countAt ((ps.get? i).getD dProfile) j

/-- The counts of block `j` of file `i` across a collection of runs. -/
def runCounts (runs : List (List Profile)) (i j : Nat) : List Nat :=
  runs.map (fun r => blockCountAt r i j)

theorem lor_eq_zero_iff (a b : Nat) : a ||| b = 0 ↔ a = 0 ∧ b = 0 := by
  constructor
  · intro h
    refine ⟨Nat.eq_of_testBit_eq fun i => ?_, Nat.eq_of_testBit_eq fun i => ?_⟩ <;>
    · have h' : (a ||| b).testBit i = false := by rw [h]; simp [Nat.zero_testBit]
      rw [Nat.testBit_or] at h'
      simp only [Bool.or_eq_false_iff] at h'
      simp [Nat.zero_testBit, h'.1, h'.2]
  · rintro ⟨rfl, rfl⟩; rfl

theorem lor_le_one {a b : Nat} (ha : a ≤ 1) (hb : b ≤ 1) : a ||| b ≤ 1 := by
  rcases Nat.le_one_iff_eq_zero_or_eq_one.mp ha with rfl | rfl <;>
    rcases Nat.le_one_iff_eq_zero_or_eq_one.mp hb with rfl | rfl <;> decide

theorem mergeCount_right_comm (m : String) (z x y : Nat) :
    mergeCount m (mergeCount m z x) y = mergeCount m (mergeCount m z y) x := by
  by_cases hs : m = "set"
  · subst hs
    simp only [mergeCount, if_true, eq_self_iff_true]
    rw [Nat.or_assoc, Nat.or_assoc, Nat.or_comm x y]
  · by_cases hc : m = "count" ∨ m = "atomic"
    · rcases hc with rfl | rfl <;> simp [mergeCount] <;> omega
    · simp [mergeCount, hs, hc]

theorem mergeCount_zero_left {m : String}
    (hm : m = "set" ∨ m = "count" ∨ m = "atomic") (c : Nat) : mergeCount m 0 c = c := by
  rcases hm with rfl | rfl | rfl <;> simp [mergeCount]

theorem mergeBlocks_eq_of_le (m : String) : ∀ (dst src : List ProfileBlock),
    src.length ≤ dst.length →
    mergeBlocks m dst src =
      some (List.zipWith (combineBlock m) dst src ++ dst.drop src.length)
  | dst, [], _ => by simp [mergeBlocks]
  | [], s :: ss, h => by simp at h
  | d :: ds, s :: ss, h => by
    simp only [List.length_cons, Nat.succ_le_succ_iff] at h
    simp [mergeBlocks, mergeBlocks_eq_of_le m ds ss h, combineBlock]

theorem mergeBlocks_eq_none (m : String) : ∀ (dst src : List ProfileBlock),
    dst.length < src.length → mergeBlocks m dst src = none
  | _, [], h => by simp at h
  | [], s :: ss, _ => by simp [mergeBlocks]
  | d :: ds, s :: ss, h => by
    simp only [List.length_cons, Nat.succ_lt_succ_iff] at h
    simp [mergeBlocks, mergeBlocks_eq_none m ds ss h]

theorem combineProfile_mode (p q : Profile) : (combineProfile p q).Mode = p.Mode := rfl

theorem combineProfile_fileName (p q : Profile) :
    (combineProfile p q).FileName = p.FileName := rfl

theorem combineProfile_length {p q : Profile} (h : q.Blocks.length = p.Blocks.length) :
    (combineProfile p q).Blocks.length = p.Blocks.length := by
  simp [combineProfile, h]

theorem zipWith_combineBlock_shape (m : String) : ∀ (as bs : List ProfileBlock),
    as.length ≤ bs.length →
    (List.zipWith (combineBlock m) as bs).map shapeOfBlock = as.map shapeOfBlock
  | [], _, _ => by simp
  | a :: as, [], h => by simp at h
  | a :: as, b :: bs, h => by
    simp only [List.length_cons, Nat.succ_le_succ_iff] at h
    simp [zipWith_combineBlock_shape m as bs h, combineBlock, shapeOfBlock]

theorem combineProfile_shape {p q : Profile} (h : q.Blocks.length = p.Blocks.length) :
    shapeOf (combineProfile p q) = shapeOf p := by
  simp [shapeOf, combineProfile, zipWith_combineBlock_shape p.Mode p.Blocks q.Blocks (le_of_eq h.symm)]

theorem get?_zipWith_combineBlock (m : String) : ∀ (as bs : List ProfileBlock) (j : Nat),
    j < as.length → j < bs.length →
    ((List.zipWith (combineBlock m) as bs).get? j).getD dBlock =
      combineBlock m ((as.get? j).getD dBlock) ((bs.get? j).getD dBlock)
  | [], _, j, h, _ => by simp at h
  | _ :: _, [], j, _, h => by simp at h
  | a :: as, b :: bs, 0, _, _ => by simp
  | a :: as, b :: bs, j + 1, h1, h2 => by
    simp only [List.length_cons, Nat.succ_lt_succ_iff] at h1 h2
    simpa using get?_zipWith_combineBlock m as bs j h1 h2

theorem mergeAcross_eq : ∀ (rest : List (List Profile)) (i : Nat) (p : Profile),
    (∀ r ∈ rest, ¬r.isEmpty →
      ∃ cp, r.get? i = some cp ∧ cp.Blocks.length = p.Blocks.length) →
    mergeAcross i p rest = some (List.foldl combineProfile p (profilesAt i rest))
  | [], _, p, _ => by simp [mergeAcross, profilesAt]
  | r :: rest, i, p, H => by
    by_cases hr : r.isEmpty
    · rw [mergeAcross, if_pos hr, profilesAt, if_pos hr]
      exact mergeAcross_eq rest i p (fun r' hr' => H r' (List.mem_cons_of_mem _ hr'))
    · obtain ⟨cp, hcp, hlen⟩ := H r (List.mem_cons_self _ _) hr
      have hmb := mergeBlocks_eq_of_le p.Mode p.Blocks cp.Blocks (le_of_eq hlen)
      have hcomb : { p with Blocks := (List.zipWith (combineBlock p.Mode) p.Blocks cp.Blocks ++
          p.Blocks.drop cp.Blocks.length) } = combineProfile p cp := by
        simp [combineProfile, hlen]
      have ih := mergeAcross_eq rest i (combineProfile p cp) (fun r' hr' hne => by
        obtain ⟨cp', h1, h2⟩ := H r' (List.mem_cons_of_mem _ hr') hne
        exact ⟨cp', h1, by rw [h2, combineProfile_length hlen]⟩)
      rw [mergeAcross, profilesAt]
      simp only [if_neg hr, hcp, hmb, hcomb, ih, List.foldl_cons]

theorem mergeEach_eq : ∀ (ps : List Profile) (rest : List (List Profile)) (i : Nat),
    (∀ r ∈ rest, ¬r.isEmpty → ∀ j, i ≤ j → j < i + ps.length →
      ∃ cp, r.get? j = some cp ∧
        (cp.Blocks.length = ((ps.get? (j - i)).getD dProfile).Blocks.length)) →
    mergeEach rest i ps = some (mergeRows rest i ps)
  | [], rest, i, _ => by simp [mergeEach, mergeRows]
  | p :: ps, rest, i, H => by
    have h1 := mergeAcross_eq rest i p (fun r hr hne => by
      obtain ⟨cp, hc1, hc2⟩ := H r hr hne i (Nat.le_refl i)
        (by simp only [List.length_cons]; omega)
      exact ⟨cp, hc1, by simpa using hc2⟩)
    have h2 := mergeEach_eq ps rest (i + 1) (fun r hr hne j hj1 hj2 => by
      obtain ⟨cp, hc1, hc2⟩ := H r hr hne j (Nat.le_of_succ_le hj1)
        (by simp only [List.length_cons] at hj2 ⊢; omega)
      refine ⟨cp, hc1, ?_⟩
      have hji : j - i = (j - (i + 1)) + 1 := by omega
      rw [hc2, hji]
      simp)
    simp [mergeEach, mergeRows, h1, h2]

theorem shape_blocks_length {p q : Profile} (h : shapeOf p = shapeOf q) :
    p.Blocks.length = q.Blocks.length := by
  have := congrArg (fun t => t.2.2.length) h
  simpa [shapeOf] using this

theorem get?_of_map_shape_eq {r r₀ : List Profile}
    (h : r.map shapeOf = r₀.map shapeOf) {j : Nat} (hj : j < r₀.length) :
    ∃ cp, r.get? j = some cp ∧ shapeOf cp = shapeOf ((r₀.get? j).getD dProfile) := by
  have hlen : r.length = r₀.length := by
    have := congrArg List.length h
    simpa using this
  have hmap : (r.map shapeOf).get? j = (r₀.map shapeOf).get? j := by rw [h]
  rw [List.get?_map, List.get?_map] at hmap
  match hr : r.get? j, hr₀ : r₀.get? j with
  | some cp, some p₀ =>
    rw [hr, hr₀] at hmap
    exact ⟨cp, rfl, by simpa [hr₀] using hmap⟩
  | none, _ =>
    rw [List.get?_eq_none] at hr
    omega
  | some _, none =>
    rw [List.get?_eq_none] at hr₀
    omega

theorem mem_dropLeadingEmpty : ∀ {cpss : List (List Profile)} {r : List Profile},
    r ∈ dropLeadingEmpty cpss → r ∈ cpss
  | [], r, h => by simp [dropLeadingEmpty] at h
  | c :: cs, r, h => by
    rw [dropLeadingEmpty] at h
    by_cases hc : c.isEmpty
    · rw [if_pos hc] at h
      exact List.mem_cons_of_mem _ (mem_dropLeadingEmpty h)
    · rwa [if_neg hc] at h

theorem nonEmptyRuns_dropLeadingEmpty : ∀ (cpss : List (List Profile)),
    nonEmptyRuns (dropLeadingEmpty cpss) = nonEmptyRuns cpss
  | [] => rfl
  | c :: cs => by
    rw [dropLeadingEmpty]
    by_cases hc : c.isEmpty
    · rw [if_pos hc, nonEmptyRuns_dropLeadingEmpty cs]
      simp [nonEmptyRuns, List.filter_cons, hc]
    · rw [if_neg hc]

theorem dropLeadingEmpty_spec : ∀ {cpss : List (List Profile)},
    cpss.all List.isEmpty = false →
    ∃ r₀ rest, dropLeadingEmpty cpss = r₀ :: rest ∧ ¬r₀.isEmpty
  | [], h => by simp at h
  | c :: cs, h => by
    by_cases hc : c.isEmpty
    · have hcs : cs.all List.isEmpty = false := by
        rcases List.all_eq_false.mp h with ⟨r, hr, hne⟩
        rcases List.mem_cons.mp hr with rfl | hr'
        · exact absurd hc (by simpa using hne)
        · exact List.all_eq_false.mpr ⟨r, hr', hne⟩
      obtain ⟨r₀, rest, h1, h2⟩ := dropLeadingEmpty_spec hcs
      exact ⟨r₀, rest, by rw [dropLeadingEmpty, if_pos hc]; exact h1, h2⟩
    · exact ⟨c, cs, by rw [dropLeadingEmpty, if_neg hc], hc⟩

theorem profilesAt_nonEmptyRuns : ∀ (rs : List (List Profile)) (i : Nat),
    profilesAt i (nonEmptyRuns rs) = profilesAt i rs
  | [], _ => rfl
  | r :: rs, i => by
    by_cases hr : r.isEmpty
    · rw [profilesAt, if_pos hr]
      have : nonEmptyRuns (r :: rs) = nonEmptyRuns rs := by
        simp [nonEmptyRuns, List.filter_cons, hr]
      rw [this, profilesAt_nonEmptyRuns rs i]
    · have : nonEmptyRuns (r :: rs) = r :: nonEmptyRuns rs := by
        simp [nonEmptyRuns, List.filter_cons, hr]
      rw [this, profilesAt, if_neg hr, profilesAt, if_neg hr,
        profilesAt_nonEmptyRuns rs i]

theorem profilesAt_mem : ∀ {rs : List (List Profile)} {i : Nat} {q : Profile},
    q ∈ profilesAt i rs → ∃ r, r ∈ rs ∧ ¬r.isEmpty ∧ r.get? i = some q
  | [], i, q, h => by simp [profilesAt] at h
  | r :: rs, i, q, h => by
    rw [profilesAt] at h
    by_cases hr : r.isEmpty
    · rw [if_pos hr] at h
      obtain ⟨r', h1, h2, h3⟩ := profilesAt_mem h
      exact ⟨r', List.mem_cons_of_mem _ h1, h2, h3⟩
    · rw [if_neg hr] at h
      match hg : r.get? i with
      | some cp =>
        rw [hg] at h
        rcases List.mem_cons.mp h with rfl | h'
        · exact ⟨r, List.mem_cons_self _ _, hr, hg⟩
        · obtain ⟨r', h1, h2, h3⟩ := profilesAt_mem h'
          exact ⟨r', List.mem_cons_of_mem _ h1, h2, h3⟩
      | none =>
        rw [hg] at h
        obtain ⟨r', h1, h2, h3⟩ := profilesAt_mem h
        exact ⟨r', List.mem_cons_of_mem _ h1, h2, h3⟩

theorem profilesAt_eq_map : ∀ (rs : List (List Profile)) (i : Nat),
    (∀ r ∈ rs, ¬r.isEmpty → i < r.length) →
    profilesAt i rs = (nonEmptyRuns rs).map (fun r => (r.get? i).getD dProfile)
  | [], _, _ => rfl
  | r :: rs, i, H => by
    by_cases hr : r.isEmpty
    · rw [profilesAt, if_pos hr]
      have : nonEmptyRuns (r :: rs) = nonEmptyRuns rs := by
        simp [nonEmptyRuns, List.filter_cons, hr]
      rw [this, profilesAt_eq_map rs i (fun r' h1 h2 => H r' (List.mem_cons_of_mem _ h1) h2)]
    · have hlt : i < r.length := H r (List.mem_cons_self _ _) hr
      have hcp : r.get? i = some (r.get ⟨i, hlt⟩) := List.get?_eq_get hlt
      have : nonEmptyRuns (r :: rs) = r :: nonEmptyRuns rs := by
        simp [nonEmptyRuns, List.filter_cons, hr]
      rw [profilesAt, if_neg hr, hcp, this, List.map_cons, hcp,
        profilesAt_eq_map rs i (fun r' h1 h2 => H r' (List.mem_cons_of_mem _ h1) h2)]
      rfl

theorem mergeRows_nil : ∀ (i : Nat) (ps : List Profile), mergeRows [] i ps = ps
  | _, [] => rfl
  | i, p :: ps => by
    rw [mergeRows, profilesAt]
    simp [mergeRows_nil (i + 1) ps]

theorem mergeRows_nonEmptyRuns : ∀ (ps : List Profile) (rs : List (List Profile)) (i : Nat),
    mergeRows (nonEmptyRuns rs) i ps = mergeRows rs i ps
  | [], _, _ => rfl
  | p :: ps, rs, i => by
    rw [mergeRows, mergeRows, profilesAt_nonEmptyRuns rs i,
      mergeRows_nonEmptyRuns ps rs (i + 1)]

theorem mergeRows_length : ∀ (ps : List Profile) (rs : List (List Profile)) (i : Nat),
    (mergeRows rs i ps).length = ps.length
  | [], _, _ => rfl
  | p :: ps, rs, i => by
    rw [mergeRows]
    simp [mergeRows_length ps rs (i + 1)]

theorem mergeRows_get? : ∀ (ps : List Profile) (rs : List (List Profile)) (i k : Nat),
    (mergeRows rs i ps).get? k =
      (ps.get? k).map (fun p => List.foldl combineProfile p (profilesAt (i + k) rs))
  | [], _, _, _ => by simp [mergeRows]
  | p :: ps, rs, i, 0 => by simp [mergeRows]
  | p :: ps, rs, i, k + 1 => by
    rw [mergeRows]
    have := mergeRows_get? ps rs (i + 1) k
    simpa [Nat.add_assoc, Nat.add_comm 1 k] using this

theorem foldl_combine_mode : ∀ (cps : List Profile) (p : Profile),
    (List.foldl combineProfile p cps).Mode = p.Mode
  | [], _ => rfl
  | q :: cps, p => by
    rw [List.foldl_cons, foldl_combine_mode cps (combineProfile p q), combineProfile_mode]

theorem foldl_combine_shape : ∀ (cps : List Profile) (p : Profile),
    (∀ q ∈ cps, q.Blocks.length = p.Blocks.length) →
    shapeOf (List.foldl combineProfile p cps) = shapeOf p
  | [], _, _ => rfl
  | q :: cps, p, H => by
    have hq : q.Blocks.length = p.Blocks.length := H q (List.mem_cons_self _ _)
    rw [List.foldl_cons,
      foldl_combine_shape cps (combineProfile p q) (fun q' hq' => by
        rw [H q' (List.mem_cons_of_mem _ hq'), (combineProfile_length hq).symm]),
      combineProfile_shape hq]

theorem foldl_combine_countAt : ∀ (cps : List Profile) (p : Profile) (j : Nat),
    (∀ q ∈ cps, q.Blocks.length = p.Blocks.length) → j < p.Blocks.length →
    countAt (List.foldl combineProfile p cps) j =
      List.foldl (mergeCount p.Mode) (countAt p j) (cps.map (fun q => countAt q j))
  | [], _, _, _, _ => rfl
  | q :: cps, p, j, H, hj => by
    have hq : q.Blocks.length = p.Blocks.length := H q (List.mem_cons_self _ _)
    have hstep : countAt (combineProfile p q) j =
        mergeCount p.Mode (countAt p j) (countAt q j) := by
      unfold countAt combineProfile
      rw [get?_zipWith_combineBlock p.Mode p.Blocks q.Blocks j hj (by omega)]
      rfl
    rw [List.foldl_cons, List.map_cons, List.foldl_cons,
      foldl_combine_countAt cps (combineProfile p q) j (fun q' hq' => by
        rw [H q' (List.mem_cons_of_mem _ hq'), (combineProfile_length hq).symm])
        (by rw [combineProfile_length hq]; exact hj),
      combineProfile_mode, hstep]

/-- Bitwise or of a list of counts. -/
def orAll (l : List Nat) : Nat := l.foldr (fun a b => a ||| b) 0

theorem mergeCount_set (a b : Nat) : mergeCount "set" a b = a ||| b := by
  simp [mergeCount]

theorem mergeCount_sum {m : String} (hm : m = "count" ∨ m = "atomic") (a b : Nat) :
    mergeCount m a b = a + b := by
  rcases hm with rfl | rfl <;> simp [mergeCount]

theorem foldl_mergeCount_set : ∀ (l : List Nat) (a : Nat),
    List.foldl (mergeCount "set") a l = a ||| orAll l
  | [], a => by simp [orAll]
  | c :: cs, a => by
    rw [List.foldl_cons, mergeCount_set, foldl_mergeCount_set cs (a ||| c)]
    show (a ||| c) ||| orAll cs = a ||| (c ||| orAll cs)
    rw [Nat.or_assoc]

theorem foldl_mergeCount_sum {m : String} (hm : m = "count" ∨ m = "atomic") :
    ∀ (l : List Nat) (a : Nat), List.foldl (mergeCount m) a l = a + l.sum
  | [], a => by simp
  | c :: cs, a => by
    rw [List.foldl_cons, mergeCount_sum hm, foldl_mergeCount_sum hm cs (a + c),
      List.sum_cons]
    omega

theorem orAll_eq_zero_iff : ∀ (l : List Nat), orAll l = 0 ↔ ∀ c ∈ l, c = 0
  | [] => by simp [orAll]
  | c :: cs => by
    show c ||| orAll cs = 0 ↔ _
    rw [lor_eq_zero_iff, orAll_eq_zero_iff cs]
    simp

theorem orAll_le_one : ∀ (l : List Nat), (∀ c ∈ l, c ≤ 1) → orAll l ≤ 1
  | [], _ => by simp [orAll]
  | c :: cs, H => by
    show c ||| orAll cs ≤ 1
    exact lor_le_one (H c (List.mem_cons_self _ _))
      (orAll_le_one cs (fun c' hc' => H c' (List.mem_cons_of_mem _ hc')))

theorem mergeTail_all_empty : ∀ (cpss : List (List Profile)),
    (∀ r ∈ cpss, r.isEmpty) → mergeTail cpss = some []
  | [], _ => rfl
  | [c], H => by
    have : c = [] := List.isEmpty_iff.mp (H c (List.mem_cons_self _ _))
    rw [this]
    rfl
  | c :: c' :: cs, H => by
    have hc : c = [] := List.isEmpty_iff.mp (H c (List.mem_cons_self _ _))
    subst hc
    rfl

/-- Characterization of `mergeProfiles`: when every non-empty run has the
same per-file shape (file names, modes, block spans and statement counts),
the merge succeeds and equals the specification fold over the non-empty
runs. -/
theorem mergeProfiles_eq_mergeFold (cpss : List (List Profile))
    (H : ∀ r ∈ cpss, ∀ r' ∈ cpss, r ≠ [] → r' ≠ [] → r.map shapeOf = r'.map shapeOf) :
    mergeProfiles cpss = some (mergeFold (nonEmptyRuns cpss)) := by
  match hall : cpss.all List.isEmpty with
  | true =>
    have hmem : ∀ r ∈ cpss, r.isEmpty := fun r hr => by
      simpa using List.all_eq_true.mp hall r hr
    have hne : nonEmptyRuns cpss = [] := List.filter_eq_nil.mpr (fun r hr => by
      simp [hmem r hr])
    rw [mergeProfiles, if_pos hall, hne, mergeTail_all_empty cpss hmem]
    rfl
  | false =>
    obtain ⟨r₀, rest, hdrop, hr₀⟩ := dropLeadingEmpty_spec hall
    have hmemdrop : ∀ r ∈ r₀ :: rest, r ∈ cpss := fun r hr =>
      mem_dropLeadingEmpty (hdrop ▸ hr)
    have hr₀cpss : r₀ ∈ cpss := hmemdrop r₀ (List.mem_cons_self _ _)
    have hr₀ne : r₀ ≠ [] := fun h => hr₀ (by simp [h])
    have hruns : nonEmptyRuns cpss = r₀ :: nonEmptyRuns rest := by
      rw [← nonEmptyRuns_dropLeadingEmpty cpss, hdrop]
      simp [nonEmptyRuns, List.filter_cons, hr₀]
    rw [mergeProfiles, if_neg (by simp [hall]), hdrop, hruns]
    match rest with
    | [] =>
      show mergeTail [r₀] = some (mergeFold (r₀ :: nonEmptyRuns []))
      rw [mergeTail]
      show some r₀ = some (mergeRows (nonEmptyRuns []) 0 r₀)
      rw [mergeRows_nonEmptyRuns, mergeRows_nil]
    | x :: xs =>
      show mergeTail (r₀ :: x :: xs) = some (mergeFold (r₀ :: nonEmptyRuns (x :: xs)))
      have heach := mergeEach_eq r₀ (x :: xs) 0 (fun r hr hne j hj1 hj2 => by
        have hrc : r ∈ cpss := hmemdrop r (List.mem_cons_of_mem _ hr)
        have hrne : r ≠ [] := fun h => hne (by simp [h])
        have hsh := H r hrc r₀ hr₀cpss hrne hr₀ne
        have hjlt : j < r₀.length := by simpa using hj2
        obtain ⟨cp, h1, h2⟩ := get?_of_map_shape_eq hsh hjlt
        refine ⟨cp, h1, ?_⟩
        have := shape_blocks_length h2
        simpa using this)
      show mergeEach (x :: xs) 0 r₀ = some (mergeFold (r₀ :: nonEmptyRuns (x :: xs)))
      rw [heach, mergeFold, mergeRows_nonEmptyRuns]

/-- Detailed characterization of the specification fold over non-empty
runs sharing one mode `m` and one shape list `s`: its length, each row
(its shape is the first run's shape) and each block count (the mode fold,
started at zero, of the corresponding counts across all non-empty runs). -/
theorem mergeFold_props (cpss : List (List Profile)) (m : String)
    (s : List (String × String × List BlockShape)) (r₀ : List Profile)
    (rs : List (List Profile))
    (hm : m = "set" ∨ m = "count" ∨ m = "atomic")
    (hruns : nonEmptyRuns cpss = r₀ :: rs)
    (hshape : ∀ r ∈ cpss, r ≠ [] → r.map shapeOf = s)
    (hmode : ∀ r ∈ cpss, ∀ p ∈ r, p.Mode = m) :
    (mergeFold (r₀ :: rs)).length = r₀.length ∧
    ∀ i, i < r₀.length →
      ∃ p₀, r₀.get? i = some p₀ ∧
        (mergeFold (r₀ :: rs)).get? i =
          some (List.foldl combineProfile p₀ (profilesAt i rs)) ∧
        shapeOf (List.foldl combineProfile p₀ (profilesAt i rs)) = shapeOf p₀ ∧
        ∀ j, j < p₀.Blocks.length →
          blockCountAt (mergeFold (r₀ :: rs)) i j =
            List.foldl (mergeCount m) 0 (runCounts (r₀ :: rs) i j) := by
  have hmem : ∀ r ∈ r₀ :: rs, r ∈ cpss ∧ ¬r.isEmpty := by
    intro r hr
    rw [← hruns] at hr
    have h := List.mem_filter.mp hr
    exact ⟨h.1, by simpa using h.2⟩
  have hne : ∀ r ∈ r₀ :: rs, r ≠ [] := fun r hr h => by
    have h2 := (hmem r hr).2
    rw [h] at h2
    simp at h2
  have hsh : ∀ r ∈ r₀ :: rs, r.map shapeOf = s := fun r hr =>
    hshape r (hmem r hr).1 (hne r hr)
  have hr₀s : r₀.map shapeOf = s := hsh r₀ (List.mem_cons_self _ _)
  have hlen : ∀ r ∈ r₀ :: rs, r.length = r₀.length := by
    intro r hr
    have h1 := congrArg List.length (hsh r hr)
    have h2 := congrArg List.length hr₀s
    simp only [List.length_map] at h1 h2
    omega
  refine ⟨mergeRows_length r₀ rs 0, ?_⟩
  intro i hi
  have hp₀ : r₀.get? i = some (r₀.get ⟨i, hi⟩) := List.get?_eq_get hi
  set p₀ := r₀.get ⟨i, hi⟩ with hp₀def
  have hqlen : ∀ q ∈ profilesAt i rs, q.Blocks.length = p₀.Blocks.length := by
    intro q hq
    obtain ⟨r, hrrs, hrne, hget⟩ := profilesAt_mem hq
    have hmap : r.map shapeOf = r₀.map shapeOf := by
      rw [hsh r (List.mem_cons_of_mem _ hrrs), hr₀s]
    obtain ⟨cp, hcp, hcps⟩ := get?_of_map_shape_eq hmap hi
    rw [hget] at hcp
    have hqcp : q = cp := by simpa using hcp
    subst hqcp
    rw [hp₀] at hcps
    exact shape_blocks_length (by simpa using hcps)
  have hrow : (mergeFold (r₀ :: rs)).get? i =
      some (List.foldl combineProfile p₀ (profilesAt i rs)) := by
    show (mergeRows rs 0 r₀).get? i = _
    rw [mergeRows_get? r₀ rs 0 i, hp₀]
    simp
  refine ⟨p₀, hp₀, hrow, foldl_combine_shape _ _ hqlen, ?_⟩
  intro j hj
  have hmode₀ : p₀.Mode = m :=
    hmode r₀ (hmem r₀ (List.mem_cons_self _ _)).1 p₀ (List.get_mem _ _ _)
  have hbc : blockCountAt (mergeFold (r₀ :: rs)) i j =
      countAt (List.foldl combineProfile p₀ (profilesAt i rs)) j := by
    unfold blockCountAt
    rw [hrow]
    rfl
  have hfilter : nonEmptyRuns rs = rs := List.filter_eq_self.mpr (fun r hr => by
    have h2 := (hmem r (List.mem_cons_of_mem _ hr)).2
    simpa using h2)
  have hpam : profilesAt i rs = rs.map (fun r => (r.get? i).getD dProfile) := by
    rw [profilesAt_eq_map rs i (fun r hr _ => by
      rw [hlen r (List.mem_cons_of_mem _ hr)]; exact hi), hfilter]
  have hmapc : (profilesAt i rs).map (fun q => countAt q j) =
      rs.map (fun r => blockCountAt r i j) := by
    rw [hpam, List.map_map]
    rfl
  have hc₀ : countAt p₀ j = blockCountAt r₀ i j := by
    unfold blockCountAt
    rw [hp₀]
    rfl
  rw [hbc, foldl_combine_countAt (profilesAt i rs) p₀ j hqlen hj, hmode₀, hmapc]
  show _ = List.foldl (mergeCount m) 0
    (blockCountAt r₀ i j :: rs.map (fun r => blockCountAt r i j))
  rw [List.foldl_cons, mergeCount_zero_left hm, hc₀]

theorem countsOf_get? (X : Profile) (j : Nat) :
    (countsOf X).get? j = (X.Blocks.get? j).map ProfileBlock.Count := by
  rw [countsOf, List.get?_map]

theorem blockCountAt_le_one {r : List Profile}
    (h : ∀ p ∈ r, ∀ b ∈ p.Blocks, b.Count ≤ 1) (i j : Nat) :
    blockCountAt r i j ≤ 1 := by
  unfold blockCountAt countAt
  cases hg : r.get? i with
  | none => simp [dProfile, dBlock]
  | some p =>
    have hpmem := List.get?_mem hg
    simp only [Option.getD_some]
    cases hg2 : p.Blocks.get? j with
    | none => simp [dBlock]
    | some b => simpa using h p hpmem b (List.get?_mem hg2)

/-- Two sample blocks sharing a span layout. -/
def exB1 : ProfileBlock := ⟨1, 1, 2, 10, 2, 1⟩

def exB1z : ProfileBlock := ⟨1, 1, 2, 10, 2, 0⟩

def exB2 : ProfileBlock := ⟨3, 1, 4, 10, 1, 0⟩

def exB2o : ProfileBlock := ⟨3, 1, 4, 10, 1, 1⟩

/-- Sample set-mode profile with two blocks. -/
def exP : Profile := ⟨"a.go", "set", [exB1, exB2]⟩

/-- Sample set-mode profile with the same shape as `exP`, other counts. -/
def exQ : Profile := ⟨"a.go", "set", [exB1z, exB2o]⟩

/-- Sample set-mode profile with only one block: its block list is shorter
than that of `exP`. -/
def exSmall : Profile := ⟨"a.go", "set", [exB1z]⟩

/-- Sample count-mode profile. -/
def exPc : Profile := ⟨"a.go", "count", [⟨1, 1, 2, 10, 2, 3⟩]⟩

/-- Sample count-mode profile with the same shape as `exPc`. -/
def exQc : Profile := ⟨"a.go", "count", [⟨1, 1, 2, 10, 2, 5⟩]⟩

/-- Claim C1: for a collection of runs that share one declared mode
(`set`, `count` or `atomic`) and identical block structure per file, the
merged count of block `j` of file `i` is: under mode `set` the bitwise or
of the counts of that block across all runs that contain the file (which
is the logical or — zero iff every run's count is zero — and stays within
0..1 whenever the runs' counts are 0/1 as set mode produces); under
`count` or `atomic` the arithmetic sum of those counts. The runs that
contain the file are exactly the non-empty runs `r₀ :: rs`: empty runs
(packages with no test files) contribute nothing. -/
theorem C1_merge_counts_by_mode (cpss : List (List Profile)) (m : String)
    (s : List (String × String × List BlockShape)) (r₀ : List Profile)
    (rs : List (List Profile))
    (hm : m = "set" ∨ m = "count" ∨ m = "atomic")
    (hruns : nonEmptyRuns cpss = r₀ :: rs)
    (hshape : ∀ r ∈ cpss, r ≠ [] → r.map shapeOf = s)
    (hmode : ∀ r ∈ cpss, ∀ p ∈ r, p.Mode = m) :
    ∃ res, mergeProfiles cpss = some res ∧
      ∀ i j, i < r₀.length → j < ((r₀.get? i).getD dProfile).Blocks.length →
        (m = "set" →
          blockCountAt res i j = orAll (runCounts (r₀ :: rs) i j) ∧
          (blockCountAt res i j = 0 ↔ ∀ c ∈ runCounts (r₀ :: rs) i j, c = 0) ∧
          ((∀ c ∈ runCounts (r₀ :: rs) i j, c ≤ 1) → blockCountAt res i j ≤ 1)) ∧
        ((m = "count" ∨ m = "atomic") →
          blockCountAt res i j = (runCounts (r₀ :: rs) i j).sum) := by
  have hpair : ∀ r ∈ cpss, ∀ r' ∈ cpss, r ≠ [] → r' ≠ [] →
      r.map shapeOf = r'.map shapeOf :=
    fun r hr r' hr' h1 h2 => by rw [hshape r hr h1, hshape r' hr' h2]
  have hmp := mergeProfiles_eq_mergeFold cpss hpair
  rw [hruns] at hmp
  refine ⟨mergeFold (r₀ :: rs), hmp, ?_⟩
  intro i j hi hj
  obtain ⟨hL, hP⟩ := mergeFold_props cpss m s r₀ rs hm hruns hshape hmode
  obtain ⟨p₀, hp₀, hrow, hshrow, hcnt⟩ := hP i hi
  rw [hp₀] at hj
  have hc := hcnt j hj
  constructor
  · intro hset
    subst hset
    have h2 : blockCountAt (mergeFold (r₀ :: rs)) i j =
        orAll (runCounts (r₀ :: rs) i j) := by
      rw [hc, foldl_mergeCount_set, Nat.zero_or]
    exact ⟨h2, by rw [h2]; exact orAll_eq_zero_iff _,
      fun hle => by rw [h2]; exact orAll_le_one _ hle⟩
  · intro hca
    rw [hc, foldl_mergeCount_sum hca, Nat.zero_add]

/-- Witness for C1 at a concrete input: two set-mode runs with counts 1,0
and 0,1 merge to counts 1,1. -/
theorem C1_merge_counts_by_mode_witness :
    ∃ res, mergeProfiles [[exP], [exQ]] = some res ∧
      blockCountAt res 0 0 = 1 ∧ blockCountAt res 0 1 = 1 := by
  obtain ⟨res, h1, h2⟩ := C1_merge_counts_by_mode [[exP], [exQ]] "set"
    ([exP].map shapeOf) [exP] [[exQ]] (Or.inl rfl) (by decide) (by decide) (by decide)
  refine ⟨res, h1, ?_, ?_⟩
  · have h3 := ((h2 0 0 (by decide) (by decide)).1 rfl).1
    rw [h3]
    decide
  · have h3 := ((h2 0 1 (by decide) (by decide)).1 rfl).1
    rw [h3]
    decide

/-- Claim C3 counterexample: the two runs `[exP]` and `[exSmall]` give the
file `a.go` block lists of different lengths (two blocks versus one), yet
`mergeProfiles` does not fail: it silently merges the one-block prefix and
returns the result (its Go signature has no error return at all). -/
theorem C3_counterexample :
    mergeProfiles [[exP], [exSmall]] = some [exP] := by decide

/-- Claim C3 amended: a length mismatch between two runs' block lists for
the same file is NOT a fatal merge error in `src/main.go` `mergeProfiles`.
If the later run's block list is no longer than the first run's, the
common prefix is silently merged and the first run's remaining blocks pass
through unchanged; if it is longer, the merge panics with an index out of
range (modelled by `none`). In neither case is an error value returned. -/
theorem C3_mismatch_not_an_error (p q : Profile) :
    (q.Blocks.length ≤ p.Blocks.length →
      mergeProfiles [[p], [q]] =
        some [{ p with Blocks := (List.zipWith (combineBlock p.Mode) p.Blocks q.Blocks ++
          p.Blocks.drop q.Blocks.length) }]) ∧
    (p.Blocks.length < q.Blocks.length → mergeProfiles [[p], [q]] = none) := by
  have hstep : mergeProfiles [[p], [q]] =
      (mergeBlocks p.Mode p.Blocks q.Blocks).map (fun bs => [{ p with Blocks := bs }]) := by
    cases hmb : mergeBlocks p.Mode p.Blocks q.Blocks with
    | none => simp [mergeProfiles, mergeTail, mergeEach, mergeAcross, dropLeadingEmpty, hmb]
    | some bs => simp [mergeProfiles, mergeTail, mergeEach, mergeAcross, dropLeadingEmpty, hmb]
  constructor
  · intro h
    rw [hstep, mergeBlocks_eq_of_le p.Mode p.Blocks q.Blocks h]
    rfl
  · intro h
    rw [hstep, mergeBlocks_eq_none p.Mode p.Blocks q.Blocks h]
    rfl

/-- Witness for the amended C3 at concrete inputs: a shorter later run is
silently merged, a longer later run panics. -/
theorem C3_mismatch_not_an_error_witness :
    mergeProfiles [[exP], [exSmall]] = some [exP] ∧
      mergeProfiles [[exSmall], [exP]] = none := by
  constructor
  · have h := (C3_mismatch_not_an_error exP exSmall).1 (by decide)
    exact h.trans (by decide)
  · exact (C3_mismatch_not_an_error exSmall exP).2 (by decide)

/-- Claim C5: for collections of runs sharing one declared mode and
identical block structure per file, the merge is invariant under any
permutation of the run collection: commutativity and associativity of the
per-mode combine operation make the merged result (hence every merged
count of every block of every file) independent of processing order. -/
theorem C5_merge_permutation_invariant (cpss cpss' : List (List Profile)) (m : String)
    (s : List (String × String × List BlockShape))
    (hm : m = "set" ∨ m = "count" ∨ m = "atomic")
    (hperm : cpss.Perm cpss')
    (hshape : ∀ r ∈ cpss, r ≠ [] → r.map shapeOf = s)
    (hmode : ∀ r ∈ cpss, ∀ p ∈ r, p.Mode = m) :
    mergeProfiles cpss = mergeProfiles cpss' := by
  have hshape' : ∀ r ∈ cpss', r ≠ [] → r.map shapeOf = s :=
    fun r hr => hshape r (hperm.mem_iff.mpr hr)
  have hmode' : ∀ r ∈ cpss', ∀ p ∈ r, p.Mode = m :=
    fun r hr => hmode r (hperm.mem_iff.mpr hr)
  have hpair : ∀ r ∈ cpss, ∀ r' ∈ cpss, r ≠ [] → r' ≠ [] →
      r.map shapeOf = r'.map shapeOf :=
    fun r hr r' hr' h1 h2 => by rw [hshape r hr h1, hshape r' hr' h2]
  have hpair' : ∀ r ∈ cpss', ∀ r' ∈ cpss', r ≠ [] → r' ≠ [] →
      r.map shapeOf = r'.map shapeOf :=
    fun r hr r' hr' h1 h2 => by rw [hshape' r hr h1, hshape' r' hr' h2]
  rw [mergeProfiles_eq_mergeFold cpss hpair, mergeProfiles_eq_mergeFold cpss' hpair']
  have hpr : (nonEmptyRuns cpss).Perm (nonEmptyRuns cpss') := hperm.filter _
  cases hr1 : nonEmptyRuns cpss with
  | nil =>
    rw [hr1] at hpr
    have h2 : nonEmptyRuns cpss' = [] := hpr.symm.eq_nil
    rw [h2]
  | cons r₀ rs =>
    rw [hr1] at hpr
    cases hr2 : nonEmptyRuns cpss' with
    | nil =>
      rw [hr2] at hpr
      exact absurd hpr.eq_nil (by simp)
    | cons r₀' rs' =>
      rw [hr2] at hpr
      obtain ⟨hL1, hP1⟩ := mergeFold_props cpss m s r₀ rs hm hr1 hshape hmode
      obtain ⟨hL2, hP2⟩ := mergeFold_props cpss' m s r₀' rs' hm hr2 hshape' hmode'
      have hr₀mem : r₀ ∈ cpss ∧ r₀ ≠ [] := by
        have hmem : r₀ ∈ nonEmptyRuns cpss := by rw [hr1]; exact List.mem_cons_self _ _
        have h := List.mem_filter.mp hmem
        refine ⟨h.1, fun hh => ?_⟩
        rw [hh] at h
        simp at h
      have hr₀'mem : r₀' ∈ cpss' ∧ r₀' ≠ [] := by
        have hmem : r₀' ∈ nonEmptyRuns cpss' := by rw [hr2]; exact List.mem_cons_self _ _
        have h := List.mem_filter.mp hmem
        refine ⟨h.1, fun hh => ?_⟩
        rw [hh] at h
        simp at h
      have hs1 : r₀.map shapeOf = s := hshape _ hr₀mem.1 hr₀mem.2
      have hs2 : r₀'.map shapeOf = s := hshape' _ hr₀'mem.1 hr₀'mem.2
      have hLen : r₀.length = r₀'.length := by
        have e1 := congrArg List.length hs1
        have e2 := congrArg List.length hs2
        simp only [List.length_map] at e1 e2
        omega
      refine congrArg some (List.ext_get? fun n => ?_)
      by_cases hn : n < r₀.length
      · obtain ⟨p₀, hp₀, hrow1, hshr1, hcnt1⟩ := hP1 n hn
        obtain ⟨p₀', hp₀', hrow2, hshr2, hcnt2⟩ := hP2 n (hLen ▸ hn)
        rw [hrow1, hrow2]
        have hpps : shapeOf p₀ = shapeOf p₀' := by
          have e1 : (r₀.map shapeOf).get? n = some (shapeOf p₀) := by
            rw [List.get?_map, hp₀]
            rfl
          have e2 : (r₀'.map shapeOf).get? n = some (shapeOf p₀') := by
            rw [List.get?_map, hp₀']
            rfl
          rw [hs1] at e1
          rw [hs2] at e2
          have := e1.symm.trans e2
          simpa using this
        refine congrArg some (profile_eq_of_shape_counts ?_ ?_)
        · rw [hshr1, hshr2, hpps]
        · -- counts of the two rows agree block by block
          have hbl1 := shape_blocks_length hshr1
          have hbl2 := shape_blocks_length hshr2
          have hppl : p₀.Blocks.length = p₀'.Blocks.length := shape_blocks_length hpps
          apply List.ext_get?
          intro j
          by_cases hjl : j < p₀.Blocks.length
          · have hg1 : (List.foldl combineProfile p₀ (profilesAt n rs)).Blocks.get? j =
                some (((List.foldl combineProfile p₀ (profilesAt n rs)).Blocks.get ⟨j, by omega⟩)) :=
              List.get?_eq_get (by omega)
            have hg2 : (List.foldl combineProfile p₀' (profilesAt n rs')).Blocks.get? j =
                some (((List.foldl combineProfile p₀' (profilesAt n rs')).Blocks.get ⟨j, by omega⟩)) :=
              List.get?_eq_get (by omega)
            have hb1 : blockCountAt (mergeFold (r₀ :: rs)) n j =
                countAt (List.foldl combineProfile p₀ (profilesAt n rs)) j := by
              unfold blockCountAt
              rw [hrow1]
              rfl
            have hb2 : blockCountAt (mergeFold (r₀' :: rs')) n j =
                countAt (List.foldl combineProfile p₀' (profilesAt n rs')) j := by
              unfold blockCountAt
              rw [hrow2]
              rfl
            have hceq : blockCountAt (mergeFold (r₀ :: rs)) n j =
                blockCountAt (mergeFold (r₀' :: rs')) n j := by
              rw [hcnt1 j hjl, hcnt2 j (by omega)]
              have hpm : (runCounts (r₀ :: rs) n j).Perm (runCounts (r₀' :: rs') n j) :=
                hpr.map _
              exact hpm.foldl_eq' (fun x _ y _ z => mergeCount_right_comm m z x y) 0
            rw [hb1, hb2] at hceq
            unfold countAt at hceq
            rw [hg1, hg2] at hceq
            rw [countsOf_get?, countsOf_get?, hg1, hg2]
            simpa using hceq
          · rw [countsOf_get?, countsOf_get?,
              List.get?_eq_none.mpr (by omega), List.get?_eq_none.mpr (by omega)]
      · rw [List.get?_eq_none.mpr (by rw [hL1]; omega),
          List.get?_eq_none.mpr (by rw [hL2]; omega)]

/-- Witness for C5 at a concrete input: swapping two count-mode runs
yields the same merged profile. -/
theorem C5_merge_permutation_invariant_witness :
    mergeProfiles [[exPc], [exQc]] = mergeProfiles [[exQc], [exPc]] :=
  C5_merge_permutation_invariant [[exPc], [exQc]] [[exQc], [exPc]] "count"
    ([exPc].map shapeOf) (Or.inr (Or.inl rfl)) (List.Perm.swap _ _ _)
    (by decide) (by decide)

/-- Claim C6: for a collection of runs sharing one declared mode and
identical block structure per file, merging the collection concatenated
with itself doubles every merged block count under mode `count` or
`atomic`; under mode `set` (with the 0/1 counts set mode produces) every
merged count stays within 0..1 no matter how many times the collection is
repeated. -/
theorem C6_merge_repetition (cpss : List (List Profile)) (m : String)
    (s : List (String × String × List BlockShape)) (r₀ : List Profile)
    (rs : List (List Profile))
    (hm : m = "set" ∨ m = "count" ∨ m = "atomic")
    (hruns : nonEmptyRuns cpss = r₀ :: rs)
    (hshape : ∀ r ∈ cpss, r ≠ [] → r.map shapeOf = s)
    (hmode : ∀ r ∈ cpss, ∀ p ∈ r, p.Mode = m) :
    ((m = "count" ∨ m = "atomic") →
      ∃ res res₂, mergeProfiles cpss = some res ∧
        mergeProfiles (cpss ++ cpss) = some res₂ ∧
        ∀ i j, i < r₀.length → j < ((r₀.get? i).getD dProfile).Blocks.length →
          blockCountAt res₂ i j = 2 * blockCountAt res i j) ∧
    (m = "set" → (∀ r ∈ cpss, ∀ p ∈ r, ∀ b ∈ p.Blocks, b.Count ≤ 1) →
      ∀ k, ∃ resk, mergeProfiles (List.join (List.replicate k cpss)) = some resk ∧
        ∀ p ∈ resk, ∀ b ∈ p.Blocks, b.Count ≤ 1) := by
  have hpair : ∀ r ∈ cpss, ∀ r' ∈ cpss, r ≠ [] → r' ≠ [] →
      r.map shapeOf = r'.map shapeOf :=
    fun r hr r' hr' h1 h2 => by rw [hshape r hr h1, hshape r' hr' h2]
  constructor
  · intro hca
    have hmp := mergeProfiles_eq_mergeFold cpss hpair
    rw [hruns] at hmp
    have hshape₂ : ∀ r ∈ cpss ++ cpss, r ≠ [] → r.map shapeOf = s := fun r hr =>
      hshape r (by rcases List.mem_append.mp hr with h | h <;> exact h)
    have hmode₂ : ∀ r ∈ cpss ++ cpss, ∀ p ∈ r, p.Mode = m := fun r hr =>
      hmode r (by rcases List.mem_append.mp hr with h | h <;> exact h)
    have hpair₂ : ∀ r ∈ cpss ++ cpss, ∀ r' ∈ cpss ++ cpss, r ≠ [] → r' ≠ [] →
        r.map shapeOf = r'.map shapeOf :=
      fun r hr r' hr' h1 h2 => by rw [hshape₂ r hr h1, hshape₂ r' hr' h2]
    have hruns₂ : nonEmptyRuns (cpss ++ cpss) = r₀ :: (rs ++ r₀ :: rs) := by
      show (cpss ++ cpss).filter (fun r => !r.isEmpty) = _
      rw [List.filter_append]
      show nonEmptyRuns cpss ++ nonEmptyRuns cpss = _
      rw [hruns, List.cons_append]
    have hmp₂ := mergeProfiles_eq_mergeFold (cpss ++ cpss) hpair₂
    rw [hruns₂] at hmp₂
    refine ⟨_, _, hmp, hmp₂, ?_⟩
    intro i j hi hj
    obtain ⟨_, hP1⟩ := mergeFold_props cpss m s r₀ rs hm hruns hshape hmode
    obtain ⟨_, hP2⟩ :=
      mergeFold_props (cpss ++ cpss) m s r₀ (rs ++ r₀ :: rs) hm hruns₂ hshape₂ hmode₂
    obtain ⟨p₀, hp₀, _, _, hcnt1⟩ := hP1 i hi
    obtain ⟨p₀', hp₀', _, _, hcnt2⟩ := hP2 i hi
    have hpp : p₀' = p₀ := by
      rw [hp₀] at hp₀'
      simpa using hp₀'.symm
    subst hpp
    rw [hp₀] at hj
    rw [hcnt1 j hj, hcnt2 j hj]
    have hsplit : runCounts (r₀ :: (rs ++ r₀ :: rs)) i j =
        runCounts (r₀ :: rs) i j ++ runCounts (r₀ :: rs) i j := by
      show ((r₀ :: rs) ++ (r₀ :: rs)).map (fun r => blockCountAt r i j) = _
      rw [List.map_append]
      rfl
    rw [hsplit, foldl_mergeCount_sum hca, foldl_mergeCount_sum hca, List.sum_append]
    omega
  · intro hset hle k
    subst hset
    have hmemk : ∀ r ∈ List.join (List.replicate k cpss), r ∈ cpss := by
      intro r hr
      obtain ⟨l, hl, hrl⟩ := List.mem_join.mp hr
      have hlc := (List.mem_replicate.mp hl).2
      rwa [hlc] at hrl
    have hshapek : ∀ r ∈ List.join (List.replicate k cpss), r ≠ [] → r.map shapeOf = s :=
      fun r hr => hshape r (hmemk r hr)
    have hmodek : ∀ r ∈ List.join (List.replicate k cpss), ∀ p ∈ r, p.Mode = "set" :=
      fun r hr => hmode r (hmemk r hr)
    have hpairk : ∀ r ∈ List.join (List.replicate k cpss),
        ∀ r' ∈ List.join (List.replicate k cpss), r ≠ [] → r' ≠ [] →
        r.map shapeOf = r'.map shapeOf :=
      fun r hr r' hr' h1 h2 => by rw [hshapek r hr h1, hshapek r' hr' h2]
    have hmpk := mergeProfiles_eq_mergeFold (List.join (List.replicate k cpss)) hpairk
    cases hrk : nonEmptyRuns (List.join (List.replicate k cpss)) with
    | nil =>
      rw [hrk] at hmpk
      exact ⟨[], hmpk, by simp⟩
    | cons q₀ qs =>
      rw [hrk] at hmpk
      refine ⟨mergeFold (q₀ :: qs), hmpk, ?_⟩
      intro p hp b hb
      obtain ⟨hLk, hPk⟩ := mergeFold_props (List.join (List.replicate k cpss)) "set" s
        q₀ qs (Or.inl rfl) hrk hshapek hmodek
      obtain ⟨i, hgi⟩ := List.get?_of_mem hp
      have hiL : i < (mergeFold (q₀ :: qs)).length := (List.get?_eq_some.mp hgi).1
      have hi : i < q₀.length := by rw [hLk] at hiL; exact hiL
      obtain ⟨p₀, hp₀, hrow, hshr, hcnt⟩ := hPk i hi
      have hpX : p = List.foldl combineProfile p₀ (profilesAt i qs) := by
        rw [hgi] at hrow
        simpa using hrow
      obtain ⟨j, hgj⟩ := List.get?_of_mem hb
      have hjX : j < p.Blocks.length := (List.get?_eq_some.mp hgj).1
      have hjp₀ : j < p₀.Blocks.length := by
        rw [hpX] at hjX
        rw [← shape_blocks_length hshr]
        exact hjX
      have hbc : b.Count = blockCountAt (mergeFold (q₀ :: qs)) i j := by
        unfold blockCountAt countAt
        rw [hgi]
        show b.Count = ((p.Blocks.get? j).getD dBlock).Count
        rw [hgj]
        rfl
      rw [hbc, hcnt j hjp₀, foldl_mergeCount_set, Nat.zero_or]
      apply orAll_le_one
      intro c hc
      obtain ⟨r, hrmem, hrc⟩ := List.mem_map.mp hc
      have hrcpss : r ∈ cpss := by
        have hrk2 : r ∈ nonEmptyRuns (List.join (List.replicate k cpss)) := by
          rw [hrk]; exact hrmem
        exact hmemk r (List.mem_filter.mp hrk2).1
      rw [← hrc]
      exact blockCountAt_le_one (fun p' hp' => hle r hrcpss p' hp') i j

/-- Witness for C6 at a concrete input: doubling a count-mode collection
doubles the merged count (3 + 5 = 8 becomes 16). -/
theorem C6_merge_repetition_witness :
    ∃ res res₂, mergeProfiles [[exPc], [exQc]] = some res ∧
      mergeProfiles ([[exPc], [exQc]] ++ [[exPc], [exQc]]) = some res₂ ∧
      blockCountAt res₂ 0 0 = 2 * blockCountAt res 0 0 := by
  obtain ⟨res, res₂, h1, h2, h3⟩ :=
    (C6_merge_repetition [[exPc], [exQc]] "count" ([exPc].map shapeOf) [exPc] [[exQc]]
      (Or.inr (Or.inl rfl)) (by decide) (by decide) (by decide)).1 (Or.inl rfl)
  exact ⟨res, res₂, h1, h2, h3 0 0 (by decide) (by decide)⟩

end V1

namespace V3

/-- The decimal digit character for `d < 10`. -/
def digitChar (d : Nat) : Char := Char.ofNat (48 + d)

/-- Fuelled decimal printer; the fuel only bounds the recursion depth and
any fuel above the digit count gives the exact decimal numeral. -/
def natReprCore (fuel : Nat) (n : Nat) : List Char :=
  match fuel with
  | 0 => []
  | fuel + 1 =>
    if n < 10 then [digitChar n]
    else natReprCore fuel (n / 10) ++ [digitChar (n % 10)]

/-- Decimal representation of a natural number, exactly as the Go format
verb `%d` prints a non-negative `int`. -/
def natRepr (n : Nat) : List Char := natReprCore (n + 1) n

/-- Accumulating decimal reader. -/
def parseNatAux (acc : Nat) : List Char → Nat
  | [] => acc
  | c :: cs => parseNatAux (acc * 10 + (c.toNat - 48)) cs

/-- Decimal reader: succeeds on non-empty all-digit strings, as the
collaborator's line regular expression `[0-9]+` demands. -/
def parseNat (l : List Char) : Option Nat :=
  if l.isEmpty then none
  else if l.all Char.isDigit then some (parseNatAux 0 l)
  else none

theorem digitChar_isDigit {d : Nat} (h : d < 10) : (digitChar d).isDigit = true := by
  interval_cases d <;> decide

theorem digitChar_toNat {d : Nat} (h : d < 10) : (digitChar d).toNat - 48 = d := by
  interval_cases d <;> decide

theorem natReprCore_ne_nil (fuel n : Nat) : natReprCore (fuel + 1) n ≠ [] := by
  rw [natReprCore]
  split <;> simp

theorem natRepr_ne_nil (n : Nat) : natRepr n ≠ [] := natReprCore_ne_nil n n

theorem natReprCore_all_digit : ∀ (fuel n : Nat), n < fuel →
    (natReprCore fuel n).all Char.isDigit = true
  | 0, n, h => absurd h (by omega)
  | fuel + 1, n, h => by
    rw [natReprCore]
    split
    · simpa using digitChar_isDigit (by omega)
    · rename_i h10
      have ih := natReprCore_all_digit fuel (n / 10) (by
        have hq : n / 10 < n := Nat.div_lt_self (by omega) (by omega)
        omega)
      simp only [List.all_append, ih, Bool.true_and, List.all_cons, List.all_nil,
        Bool.and_true]
      exact digitChar_isDigit (Nat.mod_lt _ (by omega))

theorem natRepr_all_digit (n : Nat) : (natRepr n).all Char.isDigit = true :=
  natReprCore_all_digit (n + 1) n (by omega)

theorem mem_natRepr_isDigit {n : Nat} {c : Char} (h : c ∈ natRepr n) :
    c.isDigit = true :=
  List.all_eq_true.mp (natRepr_all_digit n) c h

theorem parseNatAux_append (l₁ l₂ : List Char) : ∀ (acc : Nat),
    parseNatAux acc (l₁ ++ l₂) = parseNatAux (parseNatAux acc l₁) l₂ := by
  induction l₁ with
  | nil => intro acc; rfl
  | cons c cs ih => intro acc; exact ih _

theorem parseNatAux_single (a : Nat) (c : Char) :
    parseNatAux a [c] = a * 10 + (c.toNat - 48) := rfl

theorem parseNatAux_natReprCore : ∀ (fuel n : Nat), n < fuel → ∀ (acc : Nat),
    parseNatAux acc (natReprCore fuel n) =
      acc * 10 ^ (natReprCore fuel n).length + n
  | 0, n, h, acc => absurd h (by omega)
  | fuel + 1, n, h, acc => by
    rw [natReprCore]
    split
    · rename_i h10
      rw [parseNatAux_single, digitChar_toNat h10]
      simp
    · rename_i h10
      have hlt : n / 10 < fuel := by
        have hq : n / 10 < n := Nat.div_lt_self (by omega) (by omega)
        omega
      rw [parseNatAux_append, parseNatAux_natReprCore fuel (n / 10) hlt acc,
        parseNatAux_single, digitChar_toNat (Nat.mod_lt _ (by omega)),
        List.length_append]
      show _ = acc * 10 ^ ((natReprCore fuel (n / 10)).length + 1) + n
      rw [pow_succ, ← Nat.mul_assoc]
      have hdm : 10 * (n / 10) + n % 10 = n := Nat.div_add_mod n 10
      generalize acc * 10 ^ (natReprCore fuel (n / 10)).length = A
      omega

theorem parseNat_natRepr (n : Nat) : parseNat (natRepr n) = some n := by
  rw [parseNat]
  rw [if_neg (by simpa using natRepr_ne_nil n), if_pos (natRepr_all_digit n)]
  rw [natRepr, parseNatAux_natReprCore (n + 1) n (by omega) 0]
  simp

/-- Split a character list at every occurrence of `sep`: how
`strings.Split` cuts a string. -/
def splitOnChar (sep : Char) : List Char → List (List Char)
  | [] => [[]]
  | c :: cs =>
    if c = sep then [] :: splitOnChar sep cs
    else
      match splitOnChar sep cs with
      | [] => [[c]]
      | l :: ls => (c :: l) :: ls

theorem splitOnChar_ne_nil (sep : Char) : ∀ (l : List Char), splitOnChar sep l ≠ []
  | [] => by simp [splitOnChar]
  | c :: cs => by
    rw [splitOnChar]
    split
    · simp
    · match h : splitOnChar sep cs with
      | [] => simp
      | l :: ls => simp

theorem splitOnChar_not_mem {sep : Char} : ∀ {l : List Char}, sep ∉ l →
    splitOnChar sep l = [l]
  | [], _ => rfl
  | c :: cs, h => by
    have hc : ¬c = sep := fun hh => h (by rw [hh]; exact List.mem_cons_self _ _)
    have hcs : sep ∉ cs := fun hh => h (List.mem_cons_of_mem _ hh)
    rw [splitOnChar, if_neg hc, splitOnChar_not_mem hcs]

theorem splitOnChar_append {sep : Char} : ∀ {l : List Char} (t : List Char), sep ∉ l →
    splitOnChar sep (l ++ sep :: t) = l :: splitOnChar sep t
  | [], t, _ => by simp [splitOnChar]
  | c :: cs, t, h => by
    have hc : ¬c = sep := fun hh => h (by rw [hh]; exact List.mem_cons_self _ _)
    have hcs : sep ∉ cs := fun hh => h (List.mem_cons_of_mem _ hh)
    rw [List.cons_append, splitOnChar, if_neg hc, splitOnChar_append t hcs]

/-- Scanner-style line splitting: split at every newline, with the final
empty piece produced by a trailing newline removed (a `bufio.Scanner`
yields no final empty line). -/
def splitLines (t : List Char) : List (List Char) :=
  let ls := splitOnChar '\n' t
  if ls.getLast? = some [] then ls.dropLast else ls

/-- Rebuild a text from newline-free lines, each terminated by a newline:
the shape of every well-formed coverage profile file. -/
def joinLines (ls : List (List Char)) : List Char :=
  (ls.map (fun l => l ++ ['\n'])).join

theorem joinLines_nil : joinLines [] = [] := rfl

theorem joinLines_cons (l : List Char) (ls : List (List Char)) :
    joinLines (l :: ls) = l ++ '\n' :: joinLines ls := by
  simp [joinLines]

theorem joinLines_append (ls₁ ls₂ : List (List Char)) :
    joinLines (ls₁ ++ ls₂) = joinLines ls₁ ++ joinLines ls₂ := by
  simp [joinLines]

theorem splitOnChar_joinLines : ∀ {ls : List (List Char)},
    (∀ l ∈ ls, '\n' ∉ l) → splitOnChar '\n' (joinLines ls) = ls ++ [[]]
  | [], _ => rfl
  | l :: ls, h => by
    rw [joinLines_cons, splitOnChar_append _ (h l (List.mem_cons_self _ _)),
      splitOnChar_joinLines (fun l' hl' => h l' (List.mem_cons_of_mem _ hl'))]
    rfl

theorem splitLines_joinLines {ls : List (List Char)} (h : ∀ l ∈ ls, '\n' ∉ l) :
    splitLines (joinLines ls) = ls := by
  rw [splitLines]
  show (if (splitOnChar '\n' (joinLines ls)).getLast? = some [] then _ else _) = _
  rw [splitOnChar_joinLines h]
  rw [if_pos (by simp), List.dropLast_concat]

/-- The position part of a wire-format block line:
`<startLine>.<startCol>,<endLine>.<endCol>`. -/
def posPart (b : ProfileBlock) : List Char :=
  natRepr b.StartLine ++ '.' :: natRepr b.StartCol ++ ',' ::
    natRepr b.EndLine ++ '.' :: natRepr b.EndCol

/-- Everything after the colon of a wire-format block line:
`<pos> <numStmt> <count>`. -/
def blockRest (b : ProfileBlock) : List Char :=
  posPart b ++ ' ' :: natRepr b.NumStmt ++ ' ' :: natRepr b.Count

/-- One wire-format block line, exactly as the format string
`%s:%d.%d,%d.%d %d %d` of `dumpcp` prints it (without the newline). -/
def blockLine (fn : String) (b : ProfileBlock) : List Char :=
  fn.data ++ ':' :: blockRest b

/-- The header line `mode: <mode>` (without the newline). -/
def headerLine (mode : String) : List Char := "mode: ".data ++ mode.data

/-- The block lines of one profile (`dumpcp`'s inner loop). -/
def dumpBlocks (fn : String) : List ProfileBlock → List Char
  | [] => []
  | b :: bs => blockLine fn b ++ '\n' :: dumpBlocks fn bs

/-- The block lines of a profile list (`dumpcp`'s outer loop). -/
def dumpProfiles : List Profile → List Char
  | [] => []
  | cp :: cps => dumpBlocks cp.FileName cp.Blocks ++ dumpProfiles cps

/-- `dumpcp` (`src/unnamed/part_000` lines 286-299): nothing for an empty
profile list; otherwise one `mode:` header line naming the first
profile's mode, then one line per block, profile by profile, block by
block, in order. -/
def dumpcp : List Profile → List Char
  | [] => []
  | cp :: cps => headerLine cp.Mode ++ '\n' :: dumpProfiles (cp :: cps)

theorem not_mem_natRepr {c : Char} (h : c.isDigit = false) (n : Nat) :
    c ∉ natRepr n := fun hmem => by
  rw [mem_natRepr_isDigit hmem] at h
  cases h

theorem mem_posPart {c : Char} {b : ProfileBlock} (h : c ∈ posPart b) :
    c.isDigit = true ∨ c = '.' ∨ c = ',' := by
  simp only [posPart, List.cons_append, List.append_assoc, List.mem_append,
    List.mem_cons] at h
  rcases h with h | h | h | h | h | h | h
  · exact Or.inl (mem_natRepr_isDigit h)
  · exact Or.inr (Or.inl h)
  · exact Or.inl (mem_natRepr_isDigit h)
  · exact Or.inr (Or.inr h)
  · exact Or.inl (mem_natRepr_isDigit h)
  · exact Or.inr (Or.inl h)
  · exact Or.inl (mem_natRepr_isDigit h)

theorem mem_blockRest {c : Char} {b : ProfileBlock} (h : c ∈ blockRest b) :
    c.isDigit = true ∨ c = '.' ∨ c = ',' ∨ c = ' ' := by
  simp only [blockRest, List.cons_append, List.append_assoc, List.mem_append,
    List.mem_cons] at h
  rcases h with h | h | h | h | h
  · rcases mem_posPart h with h | h | h
    · exact Or.inl h
    · exact Or.inr (Or.inl h)
    · exact Or.inr (Or.inr (Or.inl h))
  · exact Or.inr (Or.inr (Or.inr h))
  · exact Or.inl (mem_natRepr_isDigit h)
  · exact Or.inr (Or.inr (Or.inr h))
  · exact Or.inl (mem_natRepr_isDigit h)

theorem colon_not_mem_blockRest (b : ProfileBlock) : ':' ∉ blockRest b := by
  intro h
  rcases mem_blockRest h with h | h | h | h <;> simp at h

theorem newline_not_mem_blockRest (b : ProfileBlock) : '\n' ∉ blockRest b := by
  intro h
  rcases mem_blockRest h with h | h | h | h <;> simp at h

theorem newline_not_mem_blockLine {fn : String} (hfn : '\n' ∉ fn.data)
    (b : ProfileBlock) : '\n' ∉ blockLine fn b := by
  intro h
  simp only [blockLine, List.mem_append, List.mem_cons] at h
  rcases h with h | h | h
  · exact hfn h
  · simp at h
  · exact newline_not_mem_blockRest b h

/-- Split at the last occurrence of `sep`, the way the collaborator's
greedy line pattern `(.+):…` isolates the file name. -/
def splitLast (sep : Char) : List Char → Option (List Char × List Char)
  | [] => none
  | c :: cs =>
    match splitLast sep cs with
    | some (a, b) => some (c :: a, b)
    | none => if c = sep then some ([], cs) else none

theorem splitLast_none {sep : Char} : ∀ {l : List Char}, sep ∉ l →
    splitLast sep l = none
  | [], _ => rfl
  | c :: cs, h => by
    have hc : ¬c = sep := fun hh => h (by rw [hh]; exact List.mem_cons_self _ _)
    have hcs : sep ∉ cs := fun hh => h (List.mem_cons_of_mem _ hh)
    rw [splitLast, splitLast_none hcs, if_neg hc]

theorem splitLast_append {sep : Char} : ∀ (a : List Char) {b : List Char}, sep ∉ b →
    splitLast sep (a ++ sep :: b) = some (a, b)
  | [], b, h => by
    rw [List.nil_append, splitLast, splitLast_none h, if_pos rfl]
  | c :: cs, b, h => by
    rw [List.cons_append, splitLast, splitLast_append cs h]

/-- Parse one wire-format block line into file name, block shape and
count. Modelled from the spec (§6) and the collaborator's line pattern:
the file name is everything before the last colon and must be non-empty;
the rest is `<l>.<c>,<l>.<c> <n> <m>` with decimal fields. -/
def parseBlockLine (l : List Char) : Option (List Char × BlockShape × Nat) :=
  match splitLast ':' l with
  | none => none
  | some (fn, rest) =>
    if fn = [] then none
    else
      match splitOnChar ' ' rest with
      | [pos, ns, cnt] =>
        match splitOnChar ',' pos with
        | [sp, ep] =>
          match splitOnChar '.' sp, splitOnChar '.' ep with
          | [sl, sc], [el, ec] =>
            match parseNat sl, parseNat sc, parseNat el, parseNat ec,
              parseNat ns, parseNat cnt with
            | some a, some b2, some c, some d, some e, some f =>
              some (fn, ⟨a, b2, c, d, e⟩, f)
            | _, _, _, _, _, _ => none
          | _, _ => none
        | _ => none
      | _ => none

theorem parseBlockLine_blockLine (fn : String) (b : ProfileBlock)
    (hfn : fn.data ≠ []) :
    parseBlockLine (blockLine fn b) = some (fn.data, shapeOfBlock b, b.Count) := by
  have h1 : splitLast ':' (blockLine fn b) = some (fn.data, blockRest b) :=
    splitLast_append fn.data (colon_not_mem_blockRest b)
  have hsp1 : (' ' : Char) ∉ posPart b := by
    intro h
    rcases mem_posPart h with h | h | h <;> simp at h
  have hdotted : ∀ {c : Char}, c.isDigit = false → ¬c = '.' →
      ∀ (x y : Nat), c ∉ natRepr x ++ '.' :: natRepr y := by
    intro c hc hdot x y h
    simp only [List.mem_append, List.mem_cons] at h
    rcases h with h | h | h
    · rw [mem_natRepr_isDigit h] at hc; cases hc
    · exact hdot h
    · rw [mem_natRepr_isDigit h] at hc; cases hc
  have hbr : blockRest b =
      posPart b ++ ' ' :: (natRepr b.NumStmt ++ ' ' :: natRepr b.Count) := by
    simp [blockRest]
  have h2 : splitOnChar ' ' (blockRest b) =
      [posPart b, natRepr b.NumStmt, natRepr b.Count] := by
    rw [hbr, splitOnChar_append _ hsp1,
      splitOnChar_append _ (not_mem_natRepr (by decide) _),
      splitOnChar_not_mem (not_mem_natRepr (by decide) _)]
  have h3 : posPart b = (natRepr b.StartLine ++ '.' :: natRepr b.StartCol) ++ ',' ::
      (natRepr b.EndLine ++ '.' :: natRepr b.EndCol) := by
    simp [posPart]
  have h4 : splitOnChar ',' (posPart b) =
      [natRepr b.StartLine ++ '.' :: natRepr b.StartCol,
        natRepr b.EndLine ++ '.' :: natRepr b.EndCol] := by
    rw [h3, splitOnChar_append _ (hdotted (by decide) (by decide) _ _),
      splitOnChar_not_mem (hdotted (by decide) (by decide) _ _)]
  have h5 : splitOnChar '.' (natRepr b.StartLine ++ '.' :: natRepr b.StartCol) =
      [natRepr b.StartLine, natRepr b.StartCol] := by
    rw [splitOnChar_append _ (not_mem_natRepr (by decide) _),
      splitOnChar_not_mem (not_mem_natRepr (by decide) _)]
  have h6 : splitOnChar '.' (natRepr b.EndLine ++ '.' :: natRepr b.EndCol) =
      [natRepr b.EndLine, natRepr b.EndCol] := by
    rw [splitOnChar_append _ (not_mem_natRepr (by decide) _),
      splitOnChar_not_mem (not_mem_natRepr (by decide) _)]
  simp only [parseBlockLine, h1, if_neg hfn, h2, h4, h5, h6, parseNat_natRepr]
  rfl

/-- Strict byte-wise lexicographic order on character lists: how Go
compares strings, used for the output ordering of file names. -/
def lexLt : List Char → List Char → Bool
  | [], [] => false
  | [], _ :: _ => true
  | _ :: _, [] => false
  | a :: as, b :: bs =>
    if a.toNat < b.toNat then true
    else if a.toNat = b.toNat then lexLt as bs
    else false

/-- The span (position only) of a block. -/
def posOf (b : ProfileBlock) : Nat × Nat × Nat × Nat :=
  (b.StartLine, b.StartCol, b.EndLine, b.EndCol)

/-- The span of a block shape. -/
def posOfShape (s : BlockShape) : Nat × Nat × Nat × Nat :=
  (s.StartLine, s.StartCol, s.EndLine, s.EndCol)

/-- Per-mode combination of two counts at the same span. Modelled from
the spec (§4.2): `set` is the logical or (bitwise on 0/1 counts), every
other mode sums — the convention of the collaborator's sample merging. -/
def combineCount (mode : String) (a b : Nat) : Nat :=
  if mode = "set" then a ||| b else a + b

/-- Add one block observation to a file's block list. A block with the
same span combines counts by mode, after checking that the statement
counts agree — a structural mismatch is a fatal error, as the spec
demands. A new span is appended at the end, keeping the original relative
block order. Modelled from the spec (§4.2). -/
def addBlock (mode : String) (sh : BlockShape) (cnt : Nat) :
    List ProfileBlock → Except (List Char) (List ProfileBlock)
  | [] => .ok [mkBlock sh cnt]
  | b :: bs =>
    if posOf b = posOfShape sh then
      if b.NumStmt = sh.NumStmt then
        .ok ({ b with Count := combineCount mode b.Count cnt } :: bs)
      else .error ("inconsistent NumStmt".data)
    else (addBlock mode sh cnt bs).map (fun r => b :: r)

/-- Insert one parsed block line into the accumulated profile list, which
is kept sorted lexicographically by file name; a new file is inserted at
its sorted position, an existing file gains the block. Modelled from the
spec (§4.2 output ordering and combine rules). -/
def insertBlockLine (mode : String) (fn : List Char) (sh : BlockShape) (cnt : Nat) :
    List Profile → Except (List Char) (List Profile)
  | [] => .ok [⟨⟨fn⟩, mode, [mkBlock sh cnt]⟩]
  | p :: ps =>
    if fn = p.FileName.data then
      (addBlock mode sh cnt p.Blocks).map (fun bs => { p with Blocks := bs } :: ps)
    else if lexLt fn p.FileName.data then
      .ok (⟨⟨fn⟩, mode, [mkBlock sh cnt]⟩ :: p :: ps)
    else
      (insertBlockLine mode fn sh cnt ps).map (fun r => p :: r)

/-- Process the block lines after the header, folding each into the
accumulator; a line that does not match the wire format is an error. -/
def parseLines (mode : String) (acc : List Profile) :
    List (List Char) → Except (List Char) (List Profile)
  | [] => .ok acc
  | l :: ls =>
    match parseBlockLine l with
    | none => .error ("line does not match expected format".data)
    | some (fn, sh, cnt) =>
      match insertBlockLine mode fn sh cnt acc with
      | .error e => .error e
      | .ok acc' => parseLines mode acc' ls

/-- Strip a leading pattern, returning the remainder when the list starts
with it. -/
def stripHead : List Char → List Char → Option (List Char)
  | [], rest => some rest
  | _ :: _, [] => none
  | p :: ps, c :: cs => if c = p then stripHead ps cs else none

/-- Deserialize a coverage profile text. Modelled from the spec (§6 wire
format, §4.2 combine rules and output ordering), standing in for the
external collaborator `golang.org/x/tools/cover.ParseProfiles`, which is
not part of this repository: the first line must be `mode: <m>` with a
non-empty mode, every further line is a block line, blocks of one file at
the same span are combined by the mode rule, and the resulting files are
sorted lexicographically by name. -/
def parseProfiles (t : List Char) : Except (List Char) (List Profile) :=
  match splitLines t with
  | [] => .ok []
  | ml :: rest =>
    match stripHead ("mode: ".data) ml with
    | none => .error ("bad mode line".data)
    | some mchars =>
      if mchars = [] then .error ("bad mode line".data)
      else parseLines ⟨mchars⟩ [] rest

/-- The expected header of every contributing profile file:
`mode: <covermode>` and a newline. -/
def expectHeader (covermode : String) : List Char :=
  "mode: ".data ++ covermode.data ++ ['\n']

/-- The profile-concatenation loop of `src/unnamed/part_000`
`mergeProfiles` (lines 258-277): a file that cannot be opened (`none`) is
skipped, an empty file is skipped (`io.ReadFull` reads zero bytes), a
file whose first `len(expect)` bytes are not exactly the expected header
is a fatal malformed-profile error (this also covers a file shorter than
the header, where `ReadFull` returns an error and the unread tail of the
buffer keeps its zero bytes), and the rest of every accepted file is
copied into the merged text. -/
def mergeBodies (expect : List Char) : List (Option (List Char)) →
    Except (List Char) (List Char)
  | [] => .ok []
  | none :: rest => mergeBodies expect rest
  | some s :: rest =>
    if s = [] then mergeBodies expect rest
    else if s.length < expect.length ∨ s.take expect.length ≠ expect then
      .error ("error: test wrote malformed coverage profile: ".data ++
        (s.take expect.length ++
          List.replicate (expect.length - min s.length expect.length) (Char.ofNat 0)))
    else
      (mergeBodies expect rest).map (fun r => s.drop expect.length ++ r)

/-- The textual part of `src/unnamed/part_000` `mergeProfiles` (lines
241-281): an empty configured covermode defaults to `set`; the expected
header is written first, then every accepted profile's body is appended. -/
def mergeText (profiles : List (Option (List Char))) (covermode : String) :
    Except (List Char) (List Char) :=
  let cm := if covermode = "" then "set" else covermode
  (mergeBodies (expectHeader cm) profiles).map (fun body => expectHeader cm ++ body)

/-- `src/unnamed/part_000` `mergeProfiles` (lines 241-283): the merged
text is handed to the collaborator's profile deserializer, whose result
(or error) is returned. -/
def mergeProfiles (profiles : List (Option (List Char))) (covermode : String) :
    Except (List Char) (List Profile) :=
  match mergeText profiles covermode with
  | .error e => .error e
  | .ok t => parseProfiles t

/-- The outcome of one package's `coverage` call (`src/unnamed/part_000`
lines 188-220): an optional raw profile (the content of the profile file
`coverage` returned, `none` when it returned an empty path), the success
flag of `go test`, and whether an error was returned. -/
structure RunOutcome where
  profile : Option (List Char)
  success : Bool
  err : Bool
deriving DecidableEq

/-- The profile-collection loop of `run` (`src/unnamed/part_000` lines
106-120): outcomes with an error are skipped (logged only); otherwise a
non-empty profile path is collected — note that a failed test run with a
profile is collected too, since `coverage` returns a `nil` error in that
case. -/
def collectProfiles : List RunOutcome → List (List Char)
  | [] => []
  | o :: os =>
    if o.err then collectProfiles os
    else
      match o.profile with
      | some c => c :: collectProfiles os
      | none => collectProfiles os

/-- Whether any package's tests failed (`hasFailedTest` in `run`). -/
def hasFailedTest (outcomes : List RunOutcome) : Bool :=
  outcomes.any (fun o => !o.success)

/-- `run` (`src/unnamed/part_000` lines 104-129) after the per-package
loop, given the loop's outcomes: the collected profiles are merged; a
merge error aborts with exit code 1 before anything is written to the
output file (which `os.Create` left empty); otherwise the merged result
is dumped in full and the exit code is 1 exactly when some package's
tests failed. Returns (content written to the output file, exit code). -/
def runModel (outcomes : List RunOutcome) (covermode : String) : List Char × Nat :=
  match mergeProfiles ((collectProfiles outcomes).map some) covermode with
  | .error _ => ([], 1)
  | .ok cps => (dumpcp cps, if hasFailedTest outcomes then 1 else 0)

theorem exceptMap_ok {α β ε : Type} {x : Except ε α} {f : α → β} {y : β}
    (h : x.map f = .ok y) : ∃ a, x = .ok a ∧ y = f a := by
  cases x with
  | error e => simp [Except.map] at h
  | ok a => exact ⟨a, rfl, by simpa [Except.map] using h.symm⟩

theorem exceptMap_error {α β ε : Type} {x : Except ε α} {f : α → β} {e : ε}
    (h : x = .error e) : x.map f = .error e := by
  rw [h]
  rfl

theorem mergeBodies_error_of_bad {expect s : List Char} :
    ∀ (profiles : List (Option (List Char))), some s ∈ profiles → s ≠ [] →
      s.take expect.length ≠ expect →
      ∃ e, mergeBodies expect profiles = .error e
  | [], hmem, _, _ => absurd hmem (by simp)
  | none :: rest, hmem, hne, htake => by
    have hmem' : some s ∈ rest := by
      rcases List.mem_cons.mp hmem with h | h
      · cases h
      · exact h
    exact mergeBodies_error_of_bad rest hmem' hne htake
  | some s' :: rest, hmem, hne, htake => by
    rcases List.mem_cons.mp hmem with h | h
    · have hss : s' = s := by injection h.symm
      subst hss
      rw [mergeBodies, if_neg hne, if_pos (Or.inr htake)]
      exact ⟨_, rfl⟩
    · rw [mergeBodies]
      by_cases h0 : s' = []
      · rw [if_pos h0]
        exact mergeBodies_error_of_bad rest h hne htake
      · rw [if_neg h0]
        by_cases hbad : s'.length < expect.length ∨ s'.take expect.length ≠ expect
        · rw [if_pos hbad]
          exact ⟨_, rfl⟩
        · rw [if_neg hbad]
          obtain ⟨e, he⟩ := @mergeBodies_error_of_bad expect s rest h hne htake
          exact ⟨e, exceptMap_error he⟩

theorem insertBlockLine_modes {mode : String} {fn : List Char} {sh : BlockShape}
    {cnt : Nat} : ∀ (acc : List Profile) {acc' : List Profile},
    insertBlockLine mode fn sh cnt acc = .ok acc' →
    (∀ p ∈ acc, p.Mode = mode) → ∀ p ∈ acc', p.Mode = mode
  | [], acc', h, _ => by
    rw [insertBlockLine] at h
    cases h
    intro p hp
    rcases List.mem_cons.mp hp with rfl | h
    · rfl
    · simp at h
  | q :: ps, acc', h, hacc => by
    rw [insertBlockLine] at h
    split at h
    · obtain ⟨bs, _, hacc'⟩ := exceptMap_ok h
      subst hacc'
      intro p hp
      rcases List.mem_cons.mp hp with rfl | hp
      · exact hacc q (List.mem_cons_self _ _)
      · exact hacc p (List.mem_cons_of_mem _ hp)
    · split at h
      · cases h
        intro p hp
        rcases List.mem_cons.mp hp with rfl | hp
        · rfl
        · exact hacc p hp
      · obtain ⟨r, hr, hacc'⟩ := exceptMap_ok h
        subst hacc'
        intro p hp
        rcases List.mem_cons.mp hp with rfl | hp
        · exact hacc p (List.mem_cons_self _ _)
        · exact insertBlockLine_modes ps hr
            (fun p' hp' => hacc p' (List.mem_cons_of_mem _ hp')) p hp

theorem parseLines_modes {mode : String} : ∀ (ls : List (List Char))
    (acc : List Profile) {res : List Profile},
    parseLines mode acc ls = .ok res →
    (∀ p ∈ acc, p.Mode = mode) → ∀ p ∈ res, p.Mode = mode
  | [], acc, res, h, hacc => by
    rw [parseLines] at h
    cases h
    exact hacc
  | l :: ls, acc, res, h, hacc => by
    rw [parseLines] at h
    split at h
    · cases h
    · rename_i fn sh cnt _
      split at h
      · cases h
      · rename_i acc' hins
        exact parseLines_modes ls acc' h (insertBlockLine_modes acc hins hacc)

theorem splitLines_cons_line {l : List Char} (h : '\n' ∉ l) (rest : List Char) :
    splitLines (l ++ '\n' :: rest) = l :: splitLines rest := by
  simp only [splitLines]
  rw [splitOnChar_append _ h]
  cases hS : splitOnChar '\n' rest with
  | nil => exact absurd hS (splitOnChar_ne_nil _ _)
  | cons s₀ S' =>
    rw [List.getLast?_cons_cons]
    by_cases hlast : (s₀ :: S').getLast? = some []
    · rw [if_pos hlast, if_pos hlast]
      rfl
    · rw [if_neg hlast, if_neg hlast]

theorem mergeText_empty_covermode (profiles : List (Option (List Char))) :
    mergeText profiles "" =
      (mergeBodies (expectHeader "set") profiles).map
        (fun body => expectHeader "set" ++ body) := by
  simp [mergeText]

theorem mergeText_of_ne {covermode : String} (h : ¬covermode = "")
    (profiles : List (Option (List Char))) :
    mergeText profiles covermode =
      (mergeBodies (expectHeader covermode) profiles).map
        (fun body => expectHeader covermode ++ body) := by
  simp [mergeText, h]

theorem expectHeader_set : expectHeader "set" = "mode: set\n".data := by decide

/-- Claim C10: with an empty (unset) covermode, the merge behaves exactly
as with covermode `set`: the merged text (hence the emitted header line)
starts with `mode: set`; every contributing profile whose first line
declares any other mode makes the merge fail with a malformed-profile
error; an unopenable (`none`) or empty profile file is silently skipped;
and every profile of a successful merge result carries mode `set`, so the
reporter emits the header line `mode: set`. -/
theorem C10_empty_covermode_defaults_to_set :
    (∀ profiles, mergeProfiles profiles "" = mergeProfiles profiles "set") ∧
    (∀ profiles t, mergeText profiles "" = .ok t →
      ∃ body, t = "mode: set\n".data ++ body) ∧
    (∀ profiles (s : List Char), some s ∈ profiles → s ≠ [] →
      s.take 10 ≠ "mode: set\n".data →
      ∃ e, mergeProfiles profiles "" = .error e) ∧
    (∀ profiles covermode, mergeProfiles (none :: profiles) covermode =
        mergeProfiles profiles covermode ∧
      mergeProfiles (some [] :: profiles) covermode =
        mergeProfiles profiles covermode) ∧
    (∀ profiles cps, mergeProfiles profiles "" = .ok cps →
      (∀ p ∈ cps, p.Mode = "set") ∧
      (cps ≠ [] → dumpcp cps = "mode: set\n".data ++ dumpProfiles cps)) := by
  have htext : ∀ profiles, mergeText (profiles : List (Option (List Char))) "" =
      mergeText profiles "set" := fun profiles => by
    rw [mergeText_empty_covermode, mergeText_of_ne (by decide)]
  refine ⟨?_, ?_, ?_, ?_, ?_⟩
  · intro profiles
    unfold mergeProfiles
    rw [htext]
  · intro profiles t h
    rw [mergeText_empty_covermode] at h
    obtain ⟨body, _, hbody⟩ := exceptMap_ok h
    exact ⟨body, by rw [hbody, expectHeader_set]⟩
  · intro profiles s hmem hne htake
    have hlen : ("mode: set\n".data).length = 10 := by decide
    obtain ⟨e, he⟩ := @mergeBodies_error_of_bad (expectHeader "set") s profiles hmem hne
      (by rw [expectHeader_set, hlen]; exact htake)
    refine ⟨e, ?_⟩
    unfold mergeProfiles
    rw [mergeText_empty_covermode, exceptMap_error he]
  · intro profiles covermode
    constructor
    · have hmt1 : mergeText (none :: profiles) covermode =
          mergeText profiles covermode := by
        simp only [mergeText]
        rfl
      unfold mergeProfiles
      rw [hmt1]
    · have hb : ∀ expect, mergeBodies expect (some [] :: profiles) =
          mergeBodies expect profiles := fun expect => by
        rw [mergeBodies, if_pos rfl]
      have hmt2 : mergeText (some [] :: profiles) covermode =
          mergeText profiles covermode := by
        simp only [mergeText]
        rw [hb]
      unfold mergeProfiles
      rw [hmt2]
  · intro profiles cps h
    unfold mergeProfiles at h
    cases hmt : mergeText profiles "" with
    | error e =>
      rw [hmt] at h
      have h2 : (Except.error e : Except (List Char) (List Profile)) = .ok cps := h
      cases h2
    | ok t =>
      rw [hmt] at h
      have h2 : parseProfiles t = .ok cps := h
      rw [mergeText_empty_covermode] at hmt
      obtain ⟨body, _, hbody⟩ := exceptMap_ok hmt
      have ht : t = "mode: set".data ++ '\n' :: body := by
        rw [hbody]
        have hdc : expectHeader "set" = "mode: set".data ++ ['\n'] := by decide
        rw [hdc]
        simp
      have hnl : '\n' ∉ "mode: set".data := by decide
      have hsplit : splitLines t = "mode: set".data :: splitLines body := by
        rw [ht, splitLines_cons_line hnl]
      unfold parseProfiles at h2
      rw [hsplit] at h2
      have hstrip : stripHead ("mode: ".data) ("mode: set".data) =
          some ("set".data) := by decide
      simp only [hstrip] at h2
      rw [if_neg (by decide)] at h2
      have hmodes := parseLines_modes (splitLines body) [] h2 (by simp)
      refine ⟨hmodes, ?_⟩
      intro hne
      match cps, hne with
      | c₀ :: cs, _ =>
        rw [dumpcp]
        have hm := hmodes c₀ (List.mem_cons_self _ _)
        rw [hm]
        have h1 : headerLine "set" = "mode: set".data := by decide
        have h2 : ("mode: set\n".data : List Char) = "mode: set".data ++ ['\n'] := by
          decide
        rw [h1, h2]
        simp

/-- Witness for C10 at a concrete input: a profile declaring mode `count`
makes the merge with unset covermode fail. -/
theorem C10_empty_covermode_defaults_to_set_witness :
    ∃ e, mergeProfiles [some ("mode: count\n".data)] "" = .error e :=
  C10_empty_covermode_defaults_to_set.2.2.1 [some ("mode: count\n".data)]
    ("mode: count\n".data) (by decide) (by decide) (by decide)

theorem eq_of_nlfree_prefix : ∀ (a : List Char) {b x y : List Char},
    '\n' ∉ a → '\n' ∉ b → a ++ '\n' :: x = b ++ '\n' :: y → a = b
  | [], b, x, y, _, hb, h => by
    cases b with
    | nil => rfl
    | cons c cs =>
      rw [List.nil_append, List.cons_append] at h
      have h1 : '\n' = c := (List.cons_eq_cons.mp h).1
      exact absurd (by rw [h1]; exact List.mem_cons_self _ _) hb
  | c :: cs, b, x, y, ha, hb, h => by
    cases b with
    | nil =>
      rw [List.cons_append, List.nil_append] at h
      have h1 : c = '\n' := (List.cons_eq_cons.mp h).1
      exact absurd (by rw [← h1]; exact List.mem_cons_self _ _) ha
    | cons d ds =>
      rw [List.cons_append, List.cons_append] at h
      have h1 : c = d := (List.cons_eq_cons.mp h).1
      have h2 := (List.cons_eq_cons.mp h).2
      rw [h1, eq_of_nlfree_prefix cs (fun hh => ha (List.mem_cons_of_mem _ hh))
        (fun hh => hb (List.mem_cons_of_mem _ hh)) h2]

theorem take_header_ne {cm m : String} (body : List Char) (hne : m ≠ cm)
    (hn1 : '\n' ∉ m.data) (hn2 : '\n' ∉ cm.data) :
    ("mode: ".data ++ m.data ++ '\n' :: body).take (expectHeader cm).length ≠
      expectHeader cm := by
  intro h
  have hs : "mode: ".data ++ m.data ++ '\n' :: body =
      expectHeader cm ++
        ("mode: ".data ++ m.data ++ '\n' :: body).drop (expectHeader cm).length := by
    conv_lhs => rw [← List.take_append_drop (expectHeader cm).length
      ("mode: ".data ++ m.data ++ '\n' :: body)]
    rw [h]
  have hexp : expectHeader cm ++
      ("mode: ".data ++ m.data ++ '\n' :: body).drop (expectHeader cm).length =
      "mode: ".data ++ (cm.data ++ '\n' ::
        ("mode: ".data ++ m.data ++ '\n' :: body).drop (expectHeader cm).length) := by
    simp [expectHeader]
  rw [hexp] at hs
  generalize hd : ("mode: ".data ++ m.data ++ '\n' :: body).drop
    (expectHeader cm).length = D at hs
  rw [show "mode: ".data ++ m.data ++ '\n' :: body =
    "mode: ".data ++ (m.data ++ '\n' :: body) from by simp] at hs
  have hcancel : m.data ++ '\n' :: body = cm.data ++ '\n' :: D :=
    List.append_cancel_left hs
  have hmm := eq_of_nlfree_prefix m.data hn1 hn2 hcancel
  exact hne (by
    cases m
    cases cm
    exact congrArg String.mk (by simpa using hmm))

theorem mem_collectProfiles {o : RunOutcome} {c : List Char} :
    ∀ {outcomes : List RunOutcome}, o ∈ outcomes → o.err = false →
      o.profile = some c → c ∈ collectProfiles outcomes
  | [], hmem, _, _ => absurd hmem (by simp)
  | o' :: os, hmem, herr, hprof => by
    rw [collectProfiles]
    rcases List.mem_cons.mp hmem with rfl | hmem'
    · rw [if_neg (by rw [herr]; simp), hprof]
      exact List.mem_cons_self _ _
    · have ih := mem_collectProfiles hmem' herr hprof
      split
      · exact ih
      · split
        · exact List.mem_cons_of_mem _ ih
        · exact ih

/-- Claim C2: when two collected profiles declare different accumulation
modes, the merge fails with a fatal error — whatever the configured
covermode, at most one of the two headers can match the expected one —
and the process writes zero bytes to the output destination and exits
with code 1. The profile bodies are universally quantified: the failure
does not depend on any content after the header lines, reflecting that
the mode check precedes content processing. -/
theorem C2_mode_mismatch_is_fatal (outcomes : List RunOutcome) (covermode : String)
    (o₁ o₂ : RunOutcome) (m₁ m₂ : String) (b₁ b₂ : List Char)
    (h1 : o₁ ∈ outcomes) (h2 : o₂ ∈ outcomes)
    (he1 : o₁.err = false) (he2 : o₂.err = false)
    (hp1 : o₁.profile = some ("mode: ".data ++ m₁.data ++ '\n' :: b₁))
    (hp2 : o₂.profile = some ("mode: ".data ++ m₂.data ++ '\n' :: b₂))
    (hn1 : '\n' ∉ m₁.data) (hn2 : '\n' ∉ m₂.data)
    (hncm : '\n' ∉ covermode.data)
    (hne : m₁ ≠ m₂) :
    (∃ e, mergeProfiles ((collectProfiles outcomes).map some) covermode = .error e) ∧
    runModel outcomes covermode = ([], 1) := by
  have hcmn : '\n' ∉ (if covermode = "" then "set" else covermode).data := by
    split
    · decide
    · exact hncm
  obtain ⟨m, b, o, ho, hoe, hop, hnm, hmm⟩ :
      ∃ (m : String) (b : List Char) (o : RunOutcome), o ∈ outcomes ∧
        o.err = false ∧ o.profile = some ("mode: ".data ++ m.data ++ '\n' :: b) ∧
        '\n' ∉ m.data ∧ m ≠ (if covermode = "" then "set" else covermode) := by
    by_cases h : m₁ = (if covermode = "" then "set" else covermode)
    · exact ⟨m₂, b₂, o₂, h2, he2, hp2, hn2, fun hh => hne (by rw [h, hh])⟩
    · exact ⟨m₁, b₁, o₁, h1, he1, hp1, hn1, h⟩
  have hmem : ("mode: ".data ++ m.data ++ '\n' :: b) ∈ collectProfiles outcomes :=
    mem_collectProfiles ho hoe hop
  have hsome : some ("mode: ".data ++ m.data ++ '\n' :: b) ∈
      (collectProfiles outcomes).map some :=
    List.mem_map.mpr ⟨_, hmem, rfl⟩
  have hnonnil : ("mode: ".data ++ m.data ++ '\n' :: b) ≠ [] := by
    intro hh
    have := congrArg List.length hh
    simp at this
  have htake := take_header_ne b hmm hnm hcmn
  obtain ⟨e, he⟩ := @mergeBodies_error_of_bad
    (expectHeader (if covermode = "" then "set" else covermode)) _
    ((collectProfiles outcomes).map some) hsome hnonnil htake
  have hmt : mergeText ((collectProfiles outcomes).map some) covermode = .error e := by
    simp only [mergeText]
    rw [exceptMap_error he]
  refine ⟨⟨e, ?_⟩, ?_⟩
  · unfold mergeProfiles
    rw [hmt]
  · unfold runModel mergeProfiles
    rw [hmt]

/-- Witness for C2 at a concrete input: one run declares `set`, another
declares `count`: nothing is written and the exit code is 1. -/
theorem C2_mode_mismatch_is_fatal_witness :
    runModel [⟨some ("mode: set\n".data), true, false⟩,
      ⟨some ("mode: count\n".data), true, false⟩] "" = ([], 1) :=
  (C2_mode_mismatch_is_fatal
    [⟨some ("mode: set\n".data), true, false⟩,
      ⟨some ("mode: count\n".data), true, false⟩] ""
    ⟨some ("mode: set\n".data), true, false⟩
    ⟨some ("mode: count\n".data), true, false⟩
    "set" "count" [] []
    (by decide) (by decide) (by decide) (by decide)
    (by decide) (by decide) (by decide) (by decide) (by decide) (by decide)).2

theorem char_eq_of_toNat_eq {a b : Char} (h : a.toNat = b.toNat) : a = b := by
  cases a with
  | mk v1 h1 =>
    cases b with
    | mk v2 h2 =>
      congr 1
      cases v1
      cases v2
      congr 1
      exact BitVec.eq_of_toNat_eq h

theorem lexLt_cons_iff {a b : Char} {as bs : List Char} :
    lexLt (a :: as) (b :: bs) = true ↔
      a.toNat < b.toNat ∨ (a.toNat = b.toNat ∧ lexLt as bs = true) := by
  rw [lexLt]
  split
  · rename_i h
    simp [h]
  · split
    · rename_i h h2
      simp [h, h2]
    · rename_i h h2
      simp [h, h2]

theorem lexLt_trans : ∀ {a b c : List Char},
    lexLt a b = true → lexLt b c = true → lexLt a c = true
  | [], [], _, h1, _ => by simp [lexLt] at h1
  | [], _ :: _, [], _, h2 => by simp [lexLt] at h2
  | [], _ :: _, _ :: _, _, _ => by simp [lexLt]
  | _ :: _, [], _, h1, _ => by simp [lexLt] at h1
  | _ :: _, _ :: _, [], _, h2 => by simp [lexLt] at h2
  | a :: as, b :: bs, c :: cs, h1, h2 => by
    rw [lexLt_cons_iff] at h1 h2 ⊢
    rcases h1 with h1 | ⟨h1e, h1r⟩ <;> rcases h2 with h2 | ⟨h2e, h2r⟩
    · exact Or.inl (by omega)
    · exact Or.inl (by omega)
    · exact Or.inl (by omega)
    · exact Or.inr ⟨by omega, lexLt_trans h1r h2r⟩

theorem lexLt_total : ∀ (a b : List Char), a = b ∨ lexLt a b = true ∨ lexLt b a = true
  | [], [] => Or.inl rfl
  | [], _ :: _ => Or.inr (Or.inl (by simp [lexLt]))
  | _ :: _, [] => Or.inr (Or.inr (by simp [lexLt]))
  | a :: as, b :: bs => by
    by_cases hab : a.toNat < b.toNat
    · exact Or.inr (Or.inl (lexLt_cons_iff.mpr (Or.inl hab)))
    · by_cases hba : b.toNat < a.toNat
      · exact Or.inr (Or.inr (lexLt_cons_iff.mpr (Or.inl hba)))
      · have he : a.toNat = b.toNat := by omega
        have hab2 : a = b := char_eq_of_toNat_eq he
        subst hab2
        rcases lexLt_total as bs with h | h | h
        · exact Or.inl (by rw [h])
        · exact Or.inr (Or.inl (lexLt_cons_iff.mpr (Or.inr ⟨rfl, h⟩)))
        · exact Or.inr (Or.inr (lexLt_cons_iff.mpr (Or.inr ⟨rfl, h⟩)))

/-- Sortedness of the parsed profile list: file names strictly increasing in the
lexicographic order. -/
def sortedByName (acc : List Profile) : Prop :=
  List.Pairwise (fun p q => lexLt p.FileName.data q.FileName.data = true) acc

theorem insertBlockLine_names {mode : String} {fn : List Char} {sh : BlockShape}
    {cnt : Nat} : ∀ (acc : List Profile) {acc' : List Profile},
    insertBlockLine mode fn sh cnt acc = .ok acc' →
    ∀ q ∈ acc', q.FileName.data = fn ∨ ∃ q' ∈ acc, q.FileName.data = q'.FileName.data
  | [], acc', h => by
    rw [insertBlockLine] at h
    cases h
    intro q hq
    rcases List.mem_cons.mp hq with rfl | hq'
    · exact Or.inl rfl
    · simp at hq'
  | p :: ps, acc', h => by
    rw [insertBlockLine] at h
    split at h
    · obtain ⟨bs, _, hacc'⟩ := exceptMap_ok h
      subst hacc'
      intro q hq
      rcases List.mem_cons.mp hq with rfl | hq'
      · exact Or.inr ⟨p, List.mem_cons_self _ _, rfl⟩
      · exact Or.inr ⟨q, List.mem_cons_of_mem _ hq', rfl⟩
    · split at h
      · cases h
        intro q hq
        rcases List.mem_cons.mp hq with rfl | hq'
        · exact Or.inl rfl
        · exact Or.inr ⟨q, hq', rfl⟩
      · obtain ⟨r, hr, hacc'⟩ := exceptMap_ok h
        subst hacc'
        intro q hq
        rcases List.mem_cons.mp hq with rfl | hq'
        · exact Or.inr ⟨q, List.mem_cons_self _ _, rfl⟩
        · rcases insertBlockLine_names ps hr q hq' with h1 | ⟨q', hq'', h2⟩
          · exact Or.inl h1
          · exact Or.inr ⟨q', List.mem_cons_of_mem _ hq'', h2⟩

theorem insertBlockLine_sorted {mode : String} {fn : List Char} {sh : BlockShape}
    {cnt : Nat} : ∀ (acc : List Profile) {acc' : List Profile},
    insertBlockLine mode fn sh cnt acc = .ok acc' → sortedByName acc →
    sortedByName acc'
  | [], acc', h, _ => by
    rw [insertBlockLine] at h
    cases h
    simp [sortedByName]
  | p :: ps, acc', h, hs => by
    obtain ⟨hhead, htail⟩ := List.pairwise_cons.mp hs
    rw [insertBlockLine] at h
    split at h
    · obtain ⟨bs, _, hacc'⟩ := exceptMap_ok h
      subst hacc'
      exact List.pairwise_cons.mpr ⟨fun q hq => hhead q hq, htail⟩
    · rename_i hneq
      split at h
      · rename_i hlt
        cases h
        refine List.pairwise_cons.mpr ⟨?_, hs⟩
        intro q hq
        rcases List.mem_cons.mp hq with rfl | hq'
        · exact hlt
        · exact lexLt_trans hlt (hhead q hq')
      · rename_i hlt
        obtain ⟨r, hr, hacc'⟩ := exceptMap_ok h
        subst hacc'
        refine List.pairwise_cons.mpr ⟨?_, insertBlockLine_sorted ps hr htail⟩
        intro q hq
        rcases insertBlockLine_names ps hr q hq with hq1 | ⟨q', hq', hq2⟩
        · rw [hq1]
          rcases lexLt_total fn p.FileName.data with he | h1 | h1
          · exact absurd he hneq
          · exact absurd h1 hlt
          · exact h1
        · rw [hq2]
          exact hhead q' hq'

theorem parseLines_sorted {mode : String} : ∀ (ls : List (List Char))
    (acc : List Profile) {res : List Profile},
    parseLines mode acc ls = .ok res → sortedByName acc → sortedByName res
  | [], acc, res, h, hacc => by
    rw [parseLines] at h
    cases h
    exact hacc
  | l :: ls, acc, res, h, hacc => by
    rw [parseLines] at h
    split at h
    · cases h
    · split at h
      · cases h
      · rename_i acc' hins
        exact parseLines_sorted ls acc' h (insertBlockLine_sorted acc hins hacc)

theorem parseProfiles_sorted {t : List Char} {cps : List Profile}
    (h : parseProfiles t = .ok cps) : sortedByName cps := by
  unfold parseProfiles at h
  split at h
  · cases h
    simp [sortedByName]
  · split at h
    · cases h
    · split at h
      · cases h
      · exact parseLines_sorted _ [] h (by simp [sortedByName])

theorem mergeProfiles_ok_parse {profiles : List (Option (List Char))}
    {covermode : String} {cps : List Profile}
    (h : mergeProfiles profiles covermode = .ok cps) :
    ∃ t, mergeText profiles covermode = .ok t ∧ parseProfiles t = .ok cps := by
  unfold mergeProfiles at h
  cases hmt : mergeText profiles covermode with
  | error e =>
    rw [hmt] at h
    have h2 : (Except.error e : Except (List Char) (List Profile)) = .ok cps := h
    cases h2
  | ok t =>
    rw [hmt] at h
    exact ⟨t, rfl, h⟩

theorem dumpBlocks_eq (fn : String) : ∀ (bs : List ProfileBlock),
    dumpBlocks fn bs = (bs.map (fun b => blockLine fn b ++ ['\n'])).join
  | [] => rfl
  | b :: bs => by
    rw [dumpBlocks, dumpBlocks_eq fn bs]
    simp

theorem dumpProfiles_eq : ∀ (cps : List Profile),
    dumpProfiles cps = (cps.map (fun cp =>
      (cp.Blocks.map (fun b => blockLine cp.FileName b ++ ['\n'])).join)).join
  | [] => rfl
  | cp :: cps => by
    rw [dumpProfiles, dumpBlocks_eq, dumpProfiles_eq cps]
    simp

/-- Claim C8: for a non-empty merged profile the reporter writes exactly
one header line naming the accumulation mode followed by one line per
block in the wire format, with blocks within a file in their original
relative order (the join keeps list order); the merged files are sorted
lexicographically by name; and the written output does not depend on the
success flags of the runs — only the exit code does — so the profile is
produced whether or not any package's tests failed. -/
theorem C8_output_format (outcomes : List RunOutcome) (covermode : String)
    (cps : List Profile)
    (hmerge : mergeProfiles ((collectProfiles outcomes).map some) covermode = .ok cps)
    (hne : cps ≠ []) :
    (∃ c₀ cs, cps = c₀ :: cs ∧
      runModel outcomes covermode =
        ("mode: ".data ++ c₀.Mode.data ++ '\n' ::
          (cps.map (fun cp =>
            (cp.Blocks.map (fun b => blockLine cp.FileName b ++ ['\n'])).join)).join,
         if hasFailedTest outcomes then 1 else 0)) ∧
    sortedByName cps ∧
    (∀ outcomes', collectProfiles outcomes' = collectProfiles outcomes →
      (runModel outcomes' covermode).1 = (runModel outcomes covermode).1) := by
  obtain ⟨t, hmt, hparse⟩ := mergeProfiles_ok_parse hmerge
  refine ⟨?_, parseProfiles_sorted hparse, ?_⟩
  · match cps, hne with
    | c₀ :: cs, _ =>
      refine ⟨c₀, cs, rfl, ?_⟩
      unfold runModel
      rw [hmerge]
      simp only [dumpcp, dumpProfiles_eq, headerLine]
  · intro outcomes' hcol
    unfold runModel
    rw [hcol, hmerge]

/-- Witness for C8 at a concrete input: one successful run with one block
produces the header line and that block's line, exit code 0. -/
theorem C8_output_format_witness :
    runModel [⟨some ("mode: set\na.go:1.2,3.4 2 1\n".data), true, false⟩] "set" =
      ("mode: set\na.go:1.2,3.4 2 1\n".data, 0) := by
  obtain ⟨⟨c₀, cs, hcps, hrun⟩, hsort, hind⟩ :=
    C8_output_format [⟨some ("mode: set\na.go:1.2,3.4 2 1\n".data), true, false⟩]
      "set" [⟨"a.go", "set", [⟨1, 2, 3, 4, 2, 1⟩]⟩] (by rfl) (by decide)
  cases hcps
  exact hrun.trans (by decide)

theorem stripHead_append : ∀ (pat r : List Char), stripHead pat (pat ++ r) = some r
  | [], r => rfl
  | c :: cs, r => by
    rw [List.cons_append, stripHead, if_pos rfl, stripHead_append cs r]

theorem mergeBodies_profilesOf {cm : String} : ∀ (A : List (List (List Char))),
    mergeBodies (expectHeader cm)
      ((A.map (fun bl => expectHeader cm ++ joinLines bl)).map some) =
      .ok (joinLines A.join)
  | [] => rfl
  | bl :: A => by
    rw [List.map_cons, List.map_cons, mergeBodies]
    have hne : expectHeader cm ++ joinLines bl ≠ [] := by
      intro h
      have := congrArg List.length h
      simp [expectHeader] at this
    rw [if_neg hne]
    have hlen : (expectHeader cm).length ≤ (expectHeader cm ++ joinLines bl).length := by
      simp
    have htake : (expectHeader cm ++ joinLines bl).take (expectHeader cm).length =
        expectHeader cm := List.take_left _ _
    rw [if_neg (by push_neg; exact ⟨by omega, htake⟩)]
    rw [mergeBodies_profilesOf A]
    show Except.ok ((expectHeader cm ++ joinLines bl).drop (expectHeader cm).length ++
      joinLines A.join) = _
    have hj : (bl :: A).join = bl ++ A.join := by simp
    rw [List.drop_left, hj, joinLines_append]

theorem addBlock_creates {mode : String} {sh : BlockShape} {cnt : Nat} :
    ∀ (bs : List ProfileBlock) {bs' : List ProfileBlock},
    addBlock mode sh cnt bs = .ok bs' → ∃ b ∈ bs', posOf b = posOfShape sh
  | [], bs', h => by
    rw [addBlock] at h
    cases h
    exact ⟨mkBlock sh cnt, List.mem_cons_self _ _, rfl⟩
  | b :: bs, bs', h => by
    rw [addBlock] at h
    split at h
    · rename_i hpos
      split at h
      · cases h
        exact ⟨_, List.mem_cons_self _ _, hpos⟩
      · cases h
    · obtain ⟨r, hr, hbs'⟩ := exceptMap_ok h
      subst hbs'
      obtain ⟨b', hb', hp⟩ := addBlock_creates bs hr
      exact ⟨b', List.mem_cons_of_mem _ hb', hp⟩

theorem addBlock_preserves {mode : String} {sh : BlockShape} {cnt : Nat}
    {x : Nat × Nat × Nat × Nat} : ∀ (bs : List ProfileBlock) {bs' : List ProfileBlock},
    addBlock mode sh cnt bs = .ok bs' → (∃ b ∈ bs, posOf b = x) →
    ∃ b ∈ bs', posOf b = x
  | [], bs', h, hex => by
    obtain ⟨b, hb, _⟩ := hex
    simp at hb
  | b :: bs, bs', h, hex => by
    rw [addBlock] at h
    split at h
    · split at h
      · cases h
        obtain ⟨b', hb', hpx⟩ := hex
        rcases List.mem_cons.mp hb' with rfl | hb''
        · exact ⟨_, List.mem_cons_self _ _, hpx⟩
        · exact ⟨b', List.mem_cons_of_mem _ hb'', hpx⟩
      · cases h
    · obtain ⟨r, hr, hbs'⟩ := exceptMap_ok h
      subst hbs'
      obtain ⟨b', hb', hpx⟩ := hex
      rcases List.mem_cons.mp hb' with rfl | hb''
      · exact ⟨b', List.mem_cons_self _ _, hpx⟩
      · obtain ⟨b2, hb2, hp2⟩ := addBlock_preserves bs hr ⟨b', hb'', hpx⟩
        exact ⟨b2, List.mem_cons_of_mem _ hb2, hp2⟩

/-- Presence of one file-and-span entry in a profile list. -/
def hasEntry (fn : List Char) (sh : BlockShape) (cps : List Profile) : Prop :=
  ∃ p, p ∈ cps ∧ p.FileName.data = fn ∧ ∃ b ∈ p.Blocks, posOf b = posOfShape sh

theorem insertBlockLine_creates {mode : String} {fn : List Char} {sh : BlockShape}
    {cnt : Nat} : ∀ (acc : List Profile) {acc' : List Profile},
    insertBlockLine mode fn sh cnt acc = .ok acc' → hasEntry fn sh acc'
  | [], acc', h => by
    rw [insertBlockLine] at h
    cases h
    exact ⟨_, List.mem_cons_self _ _, rfl, mkBlock sh cnt, List.mem_cons_self _ _, rfl⟩
  | p :: ps, acc', h => by
    rw [insertBlockLine] at h
    split at h
    · rename_i heq
      obtain ⟨bs, hbs, hacc'⟩ := exceptMap_ok h
      subst hacc'
      obtain ⟨b, hb, hp⟩ := addBlock_creates p.Blocks hbs
      exact ⟨_, List.mem_cons_self _ _, heq.symm, b, hb, hp⟩
    · split at h
      · cases h
        exact ⟨_, List.mem_cons_self _ _, rfl, mkBlock sh cnt,
          List.mem_cons_self _ _, rfl⟩
      · obtain ⟨r, hr, hacc'⟩ := exceptMap_ok h
        subst hacc'
        obtain ⟨q, hq, hqn, b, hb, hp⟩ := insertBlockLine_creates ps hr
        exact ⟨q, List.mem_cons_of_mem _ hq, hqn, b, hb, hp⟩

theorem insertBlockLine_preserves {mode : String} {fn' : List Char} {sh' : BlockShape}
    {cnt : Nat} {fn : List Char} {sh : BlockShape} :
    ∀ (acc : List Profile) {acc' : List Profile},
    insertBlockLine mode fn' sh' cnt acc = .ok acc' → hasEntry fn sh acc →
    hasEntry fn sh acc'
  | [], acc', h, hex => by
    obtain ⟨p, hp, _⟩ := hex
    simp at hp
  | p :: ps, acc', h, hex => by
    rw [insertBlockLine] at h
    obtain ⟨q, hq, hqn, b, hb, hpx⟩ := hex
    split at h
    · obtain ⟨bs, hbs, hacc'⟩ := exceptMap_ok h
      subst hacc'
      rcases List.mem_cons.mp hq with rfl | hq'
      · obtain ⟨b2, hb2, hp2⟩ := addBlock_preserves q.Blocks hbs ⟨b, hb, hpx⟩
        exact ⟨_, List.mem_cons_self _ _, hqn, b2, hb2, hp2⟩
      · exact ⟨q, List.mem_cons_of_mem _ hq', hqn, b, hb, hpx⟩
    · split at h
      · cases h
        exact ⟨q, List.mem_cons_of_mem _ hq, hqn, b, hb, hpx⟩
      · obtain ⟨r, hr, hacc'⟩ := exceptMap_ok h
        subst hacc'
        rcases List.mem_cons.mp hq with rfl | hq'
        · exact ⟨q, List.mem_cons_self _ _, hqn, b, hb, hpx⟩
        · obtain ⟨q2, hq2, hq2n, b2, hb2, hp2⟩ :=
            insertBlockLine_preserves ps hr ⟨q, hq', hqn, b, hb, hpx⟩
          exact ⟨q2, List.mem_cons_of_mem _ hq2, hq2n, b2, hb2, hp2⟩

theorem parseLines_preserves {mode : String} {fn : List Char} {sh : BlockShape} :
    ∀ (ls : List (List Char)) (acc : List Profile) {res : List Profile},
    parseLines mode acc ls = .ok res → hasEntry fn sh acc → hasEntry fn sh res
  | [], acc, res, h, hex => by
    rw [parseLines] at h
    cases h
    exact hex
  | l :: ls, acc, res, h, hex => by
    rw [parseLines] at h
    split at h
    · cases h
    · split at h
      · cases h
      · rename_i acc' hins
        exact parseLines_preserves ls acc' h (insertBlockLine_preserves acc hins hex)

theorem parseLines_presence {mode : String} : ∀ (ls : List (List Char))
    (acc : List Profile) {res : List Profile},
    parseLines mode acc ls = .ok res →
    ∀ l ∈ ls, ∀ fn sh cnt, parseBlockLine l = some (fn, sh, cnt) →
      hasEntry fn sh res
  | [], _, _, _, l, hl, _, _, _, _ => absurd hl (by simp)
  | l' :: ls, acc, res, h, l, hl, fn, sh, cnt, hpb => by
    rw [parseLines] at h
    split at h
    · cases h
    · rename_i fn' sh' cnt' hpb'
      split at h
      · cases h
      · rename_i acc' hins
        rcases List.mem_cons.mp hl with rfl | hl'
        · rw [hpb'] at hpb
          simp only [Option.some.injEq, Prod.mk.injEq] at hpb
          obtain ⟨h1, h2, h3⟩ := hpb
          subst h1; subst h2
          exact parseLines_preserves ls acc' h (insertBlockLine_creates acc hins)
        · exact parseLines_presence ls acc' h l hl' fn sh cnt hpb

theorem mergeText_cm {covermode cm : String}
    (hcm : cm = (if covermode = "" then "set" else covermode))
    (profiles : List (Option (List Char))) :
    mergeText profiles covermode =
      (mergeBodies (expectHeader cm) profiles).map
        (fun body => expectHeader cm ++ body) := by
  by_cases hc : covermode = ""
  · subst hc
    rw [if_pos rfl] at hcm
    subst hcm
    exact mergeText_empty_covermode profiles
  · rw [if_neg hc] at hcm
    subst hcm
    exact mergeText_of_ne hc profiles

theorem parseProfiles_header {cm : String} {t : List Char} {ls : List (List Char)}
    (hs : splitLines t = ("mode: ".data ++ cm.data) :: ls) (hne : cm ≠ "") :
    parseProfiles t = parseLines cm [] ls := by
  have hdata : cm.data ≠ [] := by
    intro h
    apply hne
    cases cm with
    | mk d =>
      cases (show d = [] from h)
      rfl
  unfold parseProfiles
  rw [hs]
  show (match stripHead ("mode: ".data) ("mode: ".data ++ cm.data) with
    | none => Except.error ("bad mode line".data)
    | some mchars =>
      if mchars = [] then Except.error ("bad mode line".data)
      else parseLines ⟨mchars⟩ [] ls) = _
  rw [stripHead_append]
  show (if cm.data = [] then Except.error ("bad mode line".data)
    else parseLines ⟨cm.data⟩ [] ls) = _
  rw [if_neg hdata]

/-- Claim C4: when some package's tests fail but its run still yields a
profile (written in the wire format, like every other collected profile),
that profile is still collected, the merge succeeds and its result is
written in full, the exit status is 1, and every span parsed from a line
of the failed run's profile is present in the merged output. -/
theorem C4_failed_run_profile_still_merged
    (outcomes : List RunOutcome) (covermode cm : String) (o : RunOutcome)
    (A : List (List (List Char))) (bls : List (List Char)) (cps : List Profile)
    (hcm : cm = (if covermode = "" then "set" else covermode))
    (hncm : '\n' ∉ cm.data)
    (ho : o ∈ outcomes) (hsucc : o.success = false) (herr : o.err = false)
    (hp : o.profile = some (expectHeader cm ++ joinLines bls))
    (hA : collectProfiles outcomes =
      A.map (fun bl => expectHeader cm ++ joinLines bl))
    (hbls : bls ∈ A)
    (hln : ∀ bl ∈ A, ∀ l ∈ bl, '\n' ∉ l)
    (hmerge : mergeProfiles ((collectProfiles outcomes).map some) covermode =
      .ok cps) :
    (expectHeader cm ++ joinLines bls) ∈ collectProfiles outcomes ∧
    runModel outcomes covermode = (dumpcp cps, 1) ∧
    ∀ l ∈ bls, ∀ fn sh cnt, parseBlockLine l = some (fn, sh, cnt) →
      ∃ p, p ∈ cps ∧ p.FileName.data = fn ∧ ∃ b ∈ p.Blocks, posOf b = posOfShape sh := by
  have hcmne : cm ≠ "" := by
    rw [hcm]
    split
    · decide
    · rename_i hc
      exact hc
  have hfail : hasFailedTest outcomes = true := by
    unfold hasFailedTest
    rw [List.any_eq_true]
    exact ⟨o, ho, by rw [hsucc]; rfl⟩
  obtain ⟨t, hmt, hparse⟩ := mergeProfiles_ok_parse hmerge
  rw [mergeText_cm hcm, hA, mergeBodies_profilesOf A] at hmt
  have ht : t = expectHeader cm ++ joinLines A.join := by
    have h2 : Except.ok (α := List Char) (ε := List Char)
        (expectHeader cm ++ joinLines A.join) = .ok t := hmt
    injection h2 with h3
    exact h3.symm
  have hallnl : ∀ l ∈ ("mode: ".data ++ cm.data) :: A.join, '\n' ∉ l := by
    intro l hl
    rcases List.mem_cons.mp hl with rfl | hl'
    · intro hmem
      rcases List.mem_append.mp hmem with h | h
      · exact absurd h (by decide)
      · exact hncm h
    · obtain ⟨bl, hbl, hlbl⟩ := List.mem_join.mp hl'
      exact hln bl hbl l hlbl
  have hsplit : splitLines t = ("mode: ".data ++ cm.data) :: A.join := by
    rw [ht, show expectHeader cm ++ joinLines A.join =
      joinLines (("mode: ".data ++ cm.data) :: A.join) from by
        rw [joinLines_cons]; simp [expectHeader]]
    exact splitLines_joinLines hallnl
  rw [parseProfiles_header hsplit hcmne] at hparse
  refine ⟨mem_collectProfiles ho herr hp, ?_, ?_⟩
  · unfold runModel
    rw [hmerge]
    show (dumpcp cps, if hasFailedTest outcomes then 1 else 0) = _
    rw [hfail]
    rfl
  · intro l hl fn sh cnt hpb
    exact parseLines_presence A.join [] hparse l
      (List.mem_join.mpr ⟨bls, hbls, hl⟩) fn sh cnt hpb

/-- Witness for C4 at a concrete input: three packages, the second one's
tests fail but still yield a profile for `b.go`; the full merged output
of all three is written, the exit code is 1, and `b.go`'s span is in the
merged result. -/
theorem C4_failed_run_profile_still_merged_witness :
    runModel
      [⟨some (expectHeader "set" ++ joinLines ["a.go:1.2,3.4 2 1".data]), true, false⟩,
       ⟨some (expectHeader "set" ++ joinLines ["b.go:5.6,7.8 1 1".data]), false, false⟩,
       ⟨some (expectHeader "set" ++ joinLines ["c.go:1.1,2.2 1 0".data]), true, false⟩]
      "set" =
      ("mode: set\na.go:1.2,3.4 2 1\nb.go:5.6,7.8 1 1\nc.go:1.1,2.2 1 0\n".data, 1) ∧
    ∃ p, p ∈ [(⟨"a.go", "set", [⟨1, 2, 3, 4, 2, 1⟩]⟩ : Profile),
        ⟨"b.go", "set", [⟨5, 6, 7, 8, 1, 1⟩]⟩, ⟨"c.go", "set", [⟨1, 1, 2, 2, 1, 0⟩]⟩] ∧
      p.FileName.data = "b.go".data ∧
      ∃ b ∈ p.Blocks, posOf b = posOfShape ⟨5, 6, 7, 8, 1⟩ := by
  obtain ⟨hmem, hrun, hpres⟩ := C4_failed_run_profile_still_merged
    [⟨some (expectHeader "set" ++ joinLines ["a.go:1.2,3.4 2 1".data]), true, false⟩,
     ⟨some (expectHeader "set" ++ joinLines ["b.go:5.6,7.8 1 1".data]), false, false⟩,
     ⟨some (expectHeader "set" ++ joinLines ["c.go:1.1,2.2 1 0".data]), true, false⟩]
    "set" "set"
    ⟨some (expectHeader "set" ++ joinLines ["b.go:5.6,7.8 1 1".data]), false, false⟩
    [["a.go:1.2,3.4 2 1".data], ["b.go:5.6,7.8 1 1".data], ["c.go:1.1,2.2 1 0".data]]
    ["b.go:5.6,7.8 1 1".data]
    [⟨"a.go", "set", [⟨1, 2, 3, 4, 2, 1⟩]⟩, ⟨"b.go", "set", [⟨5, 6, 7, 8, 1, 1⟩]⟩,
     ⟨"c.go", "set", [⟨1, 1, 2, 2, 1, 0⟩]⟩]
    (by rfl) (by decide) (by decide) (by rfl) (by rfl) (by rfl) (by rfl) (by decide)
    (by decide) (by rfl)
  refine ⟨hrun.trans ?_, hpres ("b.go:5.6,7.8 1 1".data) (by decide) ("b.go".data)
    ⟨5, 6, 7, 8, 1⟩ 1 (by rfl)⟩
  rfl

/-- Whether a run's block-line list mentions file `f`. -/
def containsF (f : List Char) (bl : List (List Char)) : Bool :=
  bl.any (fun l =>
    match parseBlockLine l with
    | some (fn, _, _) => decide (fn = f)
    | none => false)

/-- The (shape, count) observations for file `f` among a list of block
lines, in order. -/
def fLinesOf (f : List Char) (ls : List (List Char)) : List (BlockShape × Nat) :=
  ls.filterMap (fun l =>
    match parseBlockLine l with
    | some (fn, sh, cnt) => if fn = f then some (sh, cnt) else none
    | none => none)

/-- Apply one observation for a fixed file to that file's accumulated
block list (`none` = the file has not been seen yet). -/
def applyFLine (mode : String) (sh : BlockShape) (cnt : Nat) :
    Option (List ProfileBlock) → Except (List Char) (Option (List ProfileBlock))
  | none => .ok (some [mkBlock sh cnt])
  | some bs => (addBlock mode sh cnt bs).map some

/-- Fold a fixed file's observations. -/
def foldFLines (mode : String) :
    Option (List ProfileBlock) → List (BlockShape × Nat) →
      Except (List Char) (Option (List ProfileBlock))
  | st, [] => .ok st
  | st, (sh, cnt) :: rest =>
    match applyFLine mode sh cnt st with
    | .error e => .error e
    | .ok st' => foldFLines mode st' rest

/-- The block list stored for file `f` in a profile list, if any. -/
def getFileBlocks (f : List Char) (cps : List Profile) : Option (List ProfileBlock) :=
  (cps.find? (fun p => decide (p.FileName.data = f))).map Profile.Blocks

theorem fLinesOf_append (f : List Char) (ls₁ ls₂ : List (List Char)) :
    fLinesOf f (ls₁ ++ ls₂) = fLinesOf f ls₁ ++ fLinesOf f ls₂ := by
  simp [fLinesOf, List.filterMap_append]

theorem fLinesOf_join (f : List Char) : ∀ (A : List (List (List Char))),
    fLinesOf f A.join = (A.map (fLinesOf f)).join
  | [] => rfl
  | bl :: A => by
    have hj : (bl :: A).join = bl ++ A.join := by simp
    rw [hj, fLinesOf_append, fLinesOf_join f A]
    simp

theorem fLinesOf_of_not_containsF {f : List Char} {bl : List (List Char)}
    (h : containsF f bl = false) : fLinesOf f bl = [] := by
  rw [fLinesOf, List.filterMap_eq_nil]
  intro l hl
  have hall := List.any_eq_false.mp h l hl
  cases hpb : parseBlockLine l with
  | none => rfl
  | some r =>
    obtain ⟨fn, sh, cnt⟩ := r
    rw [hpb] at hall
    simp only [decide_eq_true_eq] at hall
    simp [hall]

theorem fLinesOf_join_filter (f : List Char) : ∀ (A : List (List (List Char))),
    fLinesOf f A.join = fLinesOf f (A.filter (containsF f)).join
  | [] => rfl
  | bl :: A => by
    have hj : (bl :: A).join = bl ++ A.join := by simp
    rw [hj, fLinesOf_append]
    cases hc : containsF f bl with
    | true =>
      have hfil : (bl :: A).filter (containsF f) = bl :: A.filter (containsF f) := by
        rw [List.filter_cons_of_pos hc]
      rw [hfil]
      have hj2 : (bl :: A.filter (containsF f)).join = bl ++ (A.filter (containsF f)).join := by
        simp
      rw [hj2, fLinesOf_append, fLinesOf_join_filter f A]
    | false =>
      have hfil : (bl :: A).filter (containsF f) = A.filter (containsF f) := by
        rw [List.filter_cons_of_neg (by rw [hc]; exact Bool.false_ne_true)]
      rw [hfil, fLinesOf_of_not_containsF hc, fLinesOf_join_filter f A]
      simp

theorem lexLt_irrefl : ∀ (a : List Char), lexLt a a = false
  | [] => rfl
  | c :: cs => by
    rw [lexLt, if_neg (by omega), if_pos rfl]
    exact lexLt_irrefl cs

theorem lexLt_ne {a b : List Char} (h : lexLt a b = true) : a ≠ b := by
  intro heq
  rw [heq, lexLt_irrefl] at h
  cases h

/-- Every block of the accumulator is traced to some line of `L` for the
same file, span and statement count. -/
def tracedIn (L : List (List Char)) (acc : List Profile) : Prop :=
  ∀ p ∈ acc, ∀ b ∈ p.Blocks, ∃ l ∈ L, ∃ sh cnt,
    parseBlockLine l = some (p.FileName.data, sh, cnt) ∧
    posOfShape sh = posOf b ∧ sh.NumStmt = b.NumStmt

/-- Any two lines of `L` for the same file and span agree on the
statement count. -/
def consistentL (L : List (List Char)) : Prop :=
  ∀ l₁ ∈ L, ∀ l₂ ∈ L, ∀ fn sh₁ c₁ sh₂ c₂,
    parseBlockLine l₁ = some (fn, sh₁, c₁) → parseBlockLine l₂ = some (fn, sh₂, c₂) →
    posOfShape sh₁ = posOfShape sh₂ → sh₁.NumStmt = sh₂.NumStmt

theorem addBlock_ok {mode : String} {sh : BlockShape} {cnt : Nat} :
    ∀ (bs : List ProfileBlock),
    (∀ b ∈ bs, posOf b = posOfShape sh → b.NumStmt = sh.NumStmt) →
    ∃ bs', addBlock mode sh cnt bs = .ok bs'
  | [], _ => ⟨[mkBlock sh cnt], rfl⟩
  | b :: bs, h => by
    rw [addBlock]
    by_cases hpos : posOf b = posOfShape sh
    · rw [if_pos hpos, if_pos (h b (List.mem_cons_self _ _) hpos)]
      exact ⟨_, rfl⟩
    · rw [if_neg hpos]
      obtain ⟨bs', hbs'⟩ :=
        addBlock_ok bs (fun b' hb' => h b' (List.mem_cons_of_mem _ hb'))
      rw [hbs']
      exact ⟨b :: bs', rfl⟩

theorem insertBlockLine_ok {mode : String} {fn : List Char} {sh : BlockShape}
    {cnt : Nat} : ∀ (acc : List Profile),
    (∀ p ∈ acc, p.FileName.data = fn →
      ∀ b ∈ p.Blocks, posOf b = posOfShape sh → b.NumStmt = sh.NumStmt) →
    ∃ acc', insertBlockLine mode fn sh cnt acc = .ok acc'
  | [], _ => ⟨_, rfl⟩
  | p :: ps, h => by
    rw [insertBlockLine]
    by_cases hname : fn = p.FileName.data
    · rw [if_pos hname]
      obtain ⟨bs', hbs'⟩ := addBlock_ok p.Blocks
        (h p (List.mem_cons_self _ _) hname.symm)
      rw [hbs']
      exact ⟨_, rfl⟩
    · rw [if_neg hname]
      by_cases hlt : lexLt fn p.FileName.data = true
      · rw [if_pos hlt]
        exact ⟨_, rfl⟩
      · rw [if_neg hlt]
        obtain ⟨acc', hacc'⟩ :=
          insertBlockLine_ok ps (fun q hq => h q (List.mem_cons_of_mem _ hq))
        rw [hacc']
        exact ⟨p :: acc', rfl⟩

theorem addBlock_blocksFrom {mode : String} {sh : BlockShape} {cnt : Nat} :
    ∀ (bs : List ProfileBlock) {bs' : List ProfileBlock},
    addBlock mode sh cnt bs = .ok bs' → ∀ b' ∈ bs',
    (∃ b ∈ bs, posOf b' = posOf b ∧ b'.NumStmt = b.NumStmt) ∨
    (posOf b' = posOfShape sh ∧ b'.NumStmt = sh.NumStmt)
  | [], bs', h, b', hb' => by
    rw [addBlock] at h
    cases h
    rcases List.mem_cons.mp hb' with rfl | hb''
    · exact Or.inr ⟨rfl, rfl⟩
    · simp at hb''
  | b :: bs, bs', h, b', hb' => by
    rw [addBlock] at h
    split at h
    · split at h
      · cases h
        rcases List.mem_cons.mp hb' with rfl | hb''
        · exact Or.inl ⟨b, List.mem_cons_self _ _, rfl, rfl⟩
        · exact Or.inl ⟨b', List.mem_cons_of_mem _ hb'', rfl, rfl⟩
      · cases h
    · obtain ⟨r, hr, hbs'⟩ := exceptMap_ok h
      subst hbs'
      rcases List.mem_cons.mp hb' with rfl | hb''
      · exact Or.inl ⟨b', List.mem_cons_self _ _, rfl, rfl⟩
      · rcases addBlock_blocksFrom bs hr b' hb'' with ⟨b₂, hb₂, hpe, hne⟩ | hnew
        · exact Or.inl ⟨b₂, List.mem_cons_of_mem _ hb₂, hpe, hne⟩
        · exact Or.inr hnew

theorem insertBlockLine_blocksFrom {mode : String} {fn : List Char}
    {sh : BlockShape} {cnt : Nat} : ∀ (acc : List Profile) {acc' : List Profile},
    insertBlockLine mode fn sh cnt acc = .ok acc' →
    ∀ p' ∈ acc', ∀ b' ∈ p'.Blocks,
    (∃ p ∈ acc, p'.FileName.data = p.FileName.data ∧
      ∃ b ∈ p.Blocks, posOf b' = posOf b ∧ b'.NumStmt = b.NumStmt) ∨
    (p'.FileName.data = fn ∧ posOf b' = posOfShape sh ∧ b'.NumStmt = sh.NumStmt)
  | [], acc', h, p', hp', b', hb' => by
    rw [insertBlockLine] at h
    cases h
    rcases List.mem_cons.mp hp' with rfl | hp''
    · rcases List.mem_cons.mp hb' with rfl | hb''
      · exact Or.inr ⟨rfl, rfl, rfl⟩
      · simp at hb''
    · simp at hp''
  | p :: ps, acc', h, p', hp', b', hb' => by
    rw [insertBlockLine] at h
    split at h
    · obtain ⟨bs, hbs, hacc'⟩ := exceptMap_ok h
      subst hacc'
      rcases List.mem_cons.mp hp' with rfl | hp''
      · rcases addBlock_blocksFrom p.Blocks hbs b' hb' with ⟨b₂, hb₂, hpe, hne⟩ | hnew
        · exact Or.inl ⟨p, List.mem_cons_self _ _, rfl, b₂, hb₂, hpe, hne⟩
        · rename_i heq
          exact Or.inr ⟨heq.symm, hnew⟩
      · exact Or.inl ⟨p', List.mem_cons_of_mem _ hp'', rfl, b', hb', rfl, rfl⟩
    · split at h
      · cases h
        rcases List.mem_cons.mp hp' with rfl | hp''
        · rcases List.mem_cons.mp hb' with rfl | hb''
          · exact Or.inr ⟨rfl, rfl, rfl⟩
          · simp at hb''
        · exact Or.inl ⟨p', hp'', rfl, b', hb', rfl, rfl⟩
      · obtain ⟨r, hr, hacc'⟩ := exceptMap_ok h
        subst hacc'
        rcases List.mem_cons.mp hp' with rfl | hp''
        · exact Or.inl ⟨p', List.mem_cons_self _ _, rfl, b', hb', rfl, rfl⟩
        · rcases insertBlockLine_blocksFrom ps hr p' hp'' b' hb' with
            ⟨p₂, hp₂, hne, b₂, hb₂, hpe, hnum⟩ | hnew
          · exact Or.inl ⟨p₂, List.mem_cons_of_mem _ hp₂, hne, b₂, hb₂, hpe, hnum⟩
          · exact Or.inr hnew

theorem insertBlockLine_traced {mode : String} {fn : List Char} {sh : BlockShape}
    {cnt : Nat} {L : List (List Char)} {l : List Char}
    {acc acc' : List Profile}
    (hins : insertBlockLine mode fn sh cnt acc = .ok acc')
    (htr : tracedIn L acc) (hl : l ∈ L)
    (hpb : parseBlockLine l = some (fn, sh, cnt)) : tracedIn L acc' := by
  intro p' hp' b' hb'
  rcases insertBlockLine_blocksFrom acc hins p' hp' b' hb' with
    ⟨p, hp, hname, b, hb, hpe, hnum⟩ | ⟨hname, hpe, hnum⟩
  · obtain ⟨l', hl', sh', c', hpb', hps', hns'⟩ := htr p hp b hb
    exact ⟨l', hl', sh', c', by rw [hname]; exact hpb',
      by rw [hps', hpe], by rw [hns', hnum]⟩
  · exact ⟨l, hl, sh, cnt, by rw [hname]; exact hpb,
      hpe.symm, hnum.symm⟩

theorem parseLines_ok {mode : String} {L : List (List Char)}
    (hcons : consistentL L) (hsome : ∀ l ∈ L, (parseBlockLine l).isSome) :
    ∀ (ls : List (List Char)) (acc : List Profile),
    (∀ l ∈ ls, l ∈ L) → tracedIn L acc →
    ∃ res, parseLines mode acc ls = .ok res
  | [], acc, _, _ => ⟨acc, rfl⟩
  | l :: ls, acc, hsub, htr => by
    have hlL : l ∈ L := hsub l (List.mem_cons_self _ _)
    obtain ⟨⟨fn, sh, cnt⟩, hpb⟩ := Option.isSome_iff_exists.mp (hsome l hlL)
    have hins : ∃ acc', insertBlockLine mode fn sh cnt acc = .ok acc' := by
      apply insertBlockLine_ok
      intro p hp hname b hb hpos
      obtain ⟨l', hl', sh', c', hpb', hps', hns'⟩ := htr p hp b hb
      rw [hname] at hpb'
      have := hcons l' hl' l hlL fn sh' c' sh cnt hpb' hpb
        (by rw [hps', hpos])
      rw [← hns', this]
    obtain ⟨acc', hacc'⟩ := hins
    obtain ⟨res, hres⟩ := parseLines_ok hcons hsome ls acc'
      (fun l' hl' => hsub l' (List.mem_cons_of_mem _ hl'))
      (insertBlockLine_traced hacc' htr hlL hpb)
    refine ⟨res, ?_⟩
    rw [parseLines, hpb]
    show (match insertBlockLine mode fn sh cnt acc with
      | .error e => Except.error e
      | .ok acc' => parseLines mode acc' ls) = _
    rw [hacc']
    exact hres

theorem getFileBlocks_cons (f : List Char) (p : Profile) (ps : List Profile) :
    getFileBlocks f (p :: ps) =
      if p.FileName.data = f then some p.Blocks else getFileBlocks f ps := by
  by_cases hp : p.FileName.data = f
  · simp [getFileBlocks, List.find?_cons, hp]
  · simp [getFileBlocks, List.find?_cons, hp]

theorem getFileBlocks_eq_none {f : List Char} {ps : List Profile}
    (h : ∀ q ∈ ps, q.FileName.data ≠ f) : getFileBlocks f ps = none := by
  have hfind : List.find? (fun q => decide (q.FileName.data = f)) ps = none :=
    List.find?_eq_none.mpr (by intro x hx; simpa using h x hx)
  rw [getFileBlocks, hfind]
  rfl

theorem insert_getFile_eq {mode : String} {f : List Char} {sh : BlockShape}
    {cnt : Nat} : ∀ (acc : List Profile) {acc' : List Profile},
    sortedByName acc → insertBlockLine mode f sh cnt acc = .ok acc' →
    applyFLine mode sh cnt (getFileBlocks f acc) = .ok (getFileBlocks f acc')
  | [], acc', _, h => by
    rw [insertBlockLine] at h
    cases h
    rw [getFileBlocks_cons, if_pos rfl]
    rfl
  | p :: ps, acc', hsort, h => by
    obtain ⟨hhead, htail⟩ := List.pairwise_cons.mp hsort
    rw [insertBlockLine] at h
    split at h
    · rename_i heq
      obtain ⟨bs, hbs, hacc'⟩ := exceptMap_ok h
      subst hacc'
      rw [getFileBlocks_cons, if_pos heq.symm, getFileBlocks_cons, if_pos heq.symm]
      show (addBlock mode sh cnt p.Blocks).map some = _
      rw [hbs]
      rfl
    · rename_i hneq
      split at h
      · rename_i hlt
        cases h
        have hnone : getFileBlocks f (p :: ps) = none := by
          apply getFileBlocks_eq_none
          intro q hq
          rcases List.mem_cons.mp hq with rfl | hq'
          · exact fun he => hneq he.symm
          · exact (lexLt_ne (lexLt_trans hlt (hhead q hq'))).symm
        rw [hnone, getFileBlocks_cons, if_pos rfl]
        rfl
      · rename_i hlt
        obtain ⟨r, hr, hacc'⟩ := exceptMap_ok h
        subst hacc'
        have hpf : ¬p.FileName.data = f := fun he => hneq he.symm
        rw [getFileBlocks_cons, if_neg hpf, getFileBlocks_cons, if_neg hpf]
        exact insert_getFile_eq ps htail hr

theorem insert_getFile_ne {mode : String} {fn f : List Char} {sh : BlockShape}
    {cnt : Nat} (hne : fn ≠ f) : ∀ (acc : List Profile) {acc' : List Profile},
    insertBlockLine mode fn sh cnt acc = .ok acc' →
    getFileBlocks f acc' = getFileBlocks f acc
  | [], acc', h => by
    rw [insertBlockLine] at h
    cases h
    rw [getFileBlocks_cons, if_neg (show ¬(⟨fn⟩ : String).data = f from hne)]
  | p :: ps, acc', h => by
    rw [insertBlockLine] at h
    split at h
    · rename_i heq
      obtain ⟨bs, hbs, hacc'⟩ := exceptMap_ok h
      subst hacc'
      have hpf : ¬p.FileName.data = f := by
        rw [← heq]
        exact hne
      rw [getFileBlocks_cons, if_neg hpf, getFileBlocks_cons, if_neg hpf]
    · split at h
      · cases h
        rw [getFileBlocks_cons, if_neg (show ¬(⟨fn⟩ : String).data = f from hne)]
      · obtain ⟨r, hr, hacc'⟩ := exceptMap_ok h
        subst hacc'
        by_cases hpf : p.FileName.data = f
        · rw [getFileBlocks_cons, if_pos hpf, getFileBlocks_cons, if_pos hpf]
        · rw [getFileBlocks_cons, if_neg hpf, getFileBlocks_cons, if_neg hpf]
          exact insert_getFile_ne hne ps hr

theorem parseLines_getFile {mode : String} {f : List Char} :
    ∀ (ls : List (List Char)) (acc : List Profile) {res : List Profile},
    sortedByName acc → parseLines mode acc ls = .ok res →
    foldFLines mode (getFileBlocks f acc) (fLinesOf f ls) = .ok (getFileBlocks f res)
  | [], acc, res, _, h => by
    rw [parseLines] at h
    cases h
    rfl
  | l :: ls, acc, res, hsort, h => by
    rw [parseLines] at h
    split at h
    · cases h
    · rename_i fn sh cnt hpb
      split at h
      · cases h
      · rename_i acc' hins
        have hsort' := insertBlockLine_sorted acc hins hsort
        by_cases hfn : fn = f
        · rw [hfn] at hins
          have hlines : fLinesOf f (l :: ls) = (sh, cnt) :: fLinesOf f ls := by
            simp [fLinesOf, List.filterMap_cons, hpb, hfn]
          rw [hlines, foldFLines, insert_getFile_eq acc hsort hins]
          exact parseLines_getFile ls acc' hsort' h
        · have hlines : fLinesOf f (l :: ls) = fLinesOf f ls := by
            simp [fLinesOf, List.filterMap_cons, hpb, hfn]
          rw [hlines]
          have hgfb := insert_getFile_ne hfn acc hins
          rw [← hgfb]
          exact parseLines_getFile ls acc' hsort' h

/-- The entry stored for file `f` in a profile list, if any. -/
def findFile (f : List Char) (cps : List Profile) : Option Profile :=
  cps.find? (fun p => decide (p.FileName.data = f))

theorem getFileBlocks_eq_findFile (f : List Char) (cps : List Profile) :
    getFileBlocks f cps = (findFile f cps).map Profile.Blocks := rfl

theorem findFile_congr {f : List Char} {mode : String} {cps₁ cps₂ : List Profile}
    (hm₁ : ∀ p ∈ cps₁, p.Mode = mode) (hm₂ : ∀ p ∈ cps₂, p.Mode = mode)
    (hgf : getFileBlocks f cps₁ = getFileBlocks f cps₂) :
    findFile f cps₁ = findFile f cps₂ := by
  rw [getFileBlocks_eq_findFile, getFileBlocks_eq_findFile] at hgf
  cases h₁ : findFile f cps₁ with
  | none =>
    cases h₂ : findFile f cps₂ with
    | none => rfl
    | some p₂ =>
      rw [h₁, h₂] at hgf
      cases hgf
  | some p₁ =>
    cases h₂ : findFile f cps₂ with
    | none =>
      rw [h₁, h₂] at hgf
      cases hgf
    | some p₂ =>
      rw [h₁, h₂] at hgf
      have hblocks : p₁.Blocks = p₂.Blocks := by
        simpa using hgf
      have hn₁ : p₁.FileName.data = f := by
        simpa using List.find?_some h₁
      have hn₂ : p₂.FileName.data = f := by
        simpa using List.find?_some h₂
      have hmode : p₁.Mode = p₂.Mode := by
        rw [hm₁ p₁ (List.mem_of_find?_eq_some h₁),
          hm₂ p₂ (List.mem_of_find?_eq_some h₂)]
      have hname : p₁.FileName = p₂.FileName := by
        cases hfn₁ : p₁.FileName with
        | mk d₁ =>
          cases hfn₂ : p₂.FileName with
          | mk d₂ =>
            rw [hfn₁] at hn₁
            rw [hfn₂] at hn₂
            rw [show d₁ = f from hn₁, show d₂ = f from hn₂]
      cases p₁ with
  | mk fn₁ m₁ bs₁ =>
    cases p₂ with
  | mk fn₂ m₂ bs₂ =>
    simp only at hblocks hmode hname
    rw [hblocks, hmode, hname]

theorem mergeProfiles_eq_parse {profiles : List (Option (List Char))}
    {covermode : String} {t : List Char}
    (h : mergeText profiles covermode = .ok t) :
    mergeProfiles profiles covermode = parseProfiles t := by
  unfold mergeProfiles
  rw [h]

theorem mergeProfiles_ok_of_lines {covermode cm : String} {L : List (List Char)}
    (hcm : cm = (if covermode = "" then "set" else covermode))
    (hncm : '\n' ∉ cm.data)
    (B : List (List (List Char)))
    (hln : ∀ bl ∈ B, ∀ l ∈ bl, '\n' ∉ l)
    (hsub : ∀ l ∈ B.join, l ∈ L)
    (hcons : consistentL L)
    (hsome : ∀ l ∈ L, (parseBlockLine l).isSome) :
    ∃ cps,
      mergeProfiles ((B.map (fun bl => expectHeader cm ++ joinLines bl)).map some)
        covermode = .ok cps ∧
      parseLines cm [] B.join = .ok cps := by
  have hcmne : cm ≠ "" := by
    rw [hcm]
    split
    · decide
    · rename_i hc
      exact hc
  have hmt : mergeText ((B.map (fun bl => expectHeader cm ++ joinLines bl)).map some)
      covermode = .ok (expectHeader cm ++ joinLines B.join) := by
    rw [mergeText_cm hcm, mergeBodies_profilesOf B]
    rfl
  have hallnl : ∀ l ∈ ("mode: ".data ++ cm.data) :: B.join, '\n' ∉ l := by
    intro l hl
    rcases List.mem_cons.mp hl with rfl | hl'
    · intro hmem
      rcases List.mem_append.mp hmem with h | h
      · exact absurd h (by decide)
      · exact hncm h
    · obtain ⟨bl, hbl, hlbl⟩ := List.mem_join.mp hl'
      exact hln bl hbl l hlbl
  have hsplit : splitLines (expectHeader cm ++ joinLines B.join) =
      ("mode: ".data ++ cm.data) :: B.join := by
    rw [show expectHeader cm ++ joinLines B.join =
      joinLines (("mode: ".data ++ cm.data) :: B.join) from by
        rw [joinLines_cons]; simp [expectHeader]]
    exact splitLines_joinLines hallnl
  obtain ⟨cps, hcps⟩ := parseLines_ok hcons hsome B.join [] hsub
    (by intro p hp; exact absurd hp (List.not_mem_nil p))
  refine ⟨cps, ?_, hcps⟩
  rw [mergeProfiles_eq_parse hmt, parseProfiles_header hsplit hcmne]
  exact hcps

/-- Claim C9: when a file `f` appears only in some of the runs, the merge
does not fail, and the merged entry for `f` is identical to the one
obtained by merging just the runs whose profiles contain `f`: runs
lacking the file contribute nothing for it, and when no run contains it,
no entry for it appears at all (it is not treated as a zero block). -/
theorem C9_missing_file_not_zero (covermode cm : String) (f : List Char)
    (A : List (List (List Char)))
    (hcm : cm = (if covermode = "" then "set" else covermode))
    (hncm : '\n' ∉ cm.data)
    (hln : ∀ bl ∈ A, ∀ l ∈ bl, '\n' ∉ l)
    (hsome : ∀ l ∈ A.join, (parseBlockLine l).isSome)
    (hcons : consistentL A.join) :
    ∃ cpsAll cpsOnly,
      mergeProfiles ((A.map (fun bl => expectHeader cm ++ joinLines bl)).map some)
        covermode = .ok cpsAll ∧
      mergeProfiles (((A.filter (containsF f)).map
        (fun bl => expectHeader cm ++ joinLines bl)).map some) covermode =
        .ok cpsOnly ∧
      findFile f cpsAll = findFile f cpsOnly ∧
      ((∀ bl ∈ A, containsF f bl = false) → findFile f cpsAll = none) := by
  obtain ⟨cpsAll, hmAll, hpAll⟩ :=
    mergeProfiles_ok_of_lines hcm hncm A hln (fun l hl => hl) hcons hsome
  have hlnF : ∀ bl ∈ A.filter (containsF f), ∀ l ∈ bl, '\n' ∉ l :=
    fun bl hbl => hln bl (List.mem_of_mem_filter hbl)
  have hsubF : ∀ l ∈ (A.filter (containsF f)).join, l ∈ A.join := by
    intro l hl
    obtain ⟨bl, hbl, hlbl⟩ := List.mem_join.mp hl
    exact List.mem_join.mpr ⟨bl, List.mem_of_mem_filter hbl, hlbl⟩
  obtain ⟨cpsOnly, hmOnly, hpOnly⟩ :=
    mergeProfiles_ok_of_lines hcm hncm (A.filter (containsF f)) hlnF hsubF
      hcons hsome
  have hgAll := @parseLines_getFile cm f A.join [] cpsAll
    (by simp [sortedByName]) hpAll
  have hgOnly := @parseLines_getFile cm f (A.filter (containsF f)).join [] cpsOnly
    (by simp [sortedByName]) hpOnly
  rw [fLinesOf_join_filter f A] at hgAll
  have heq : getFileBlocks f cpsAll = getFileBlocks f cpsOnly := by
    have h2 := hgAll.symm.trans hgOnly
    injection h2
  have hmodesAll := parseLines_modes A.join [] hpAll
    (by intro p hp; exact absurd hp (List.not_mem_nil p))
  have hmodesOnly := parseLines_modes (A.filter (containsF f)).join [] hpOnly
    (by intro p hp; exact absurd hp (List.not_mem_nil p))
  refine ⟨cpsAll, cpsOnly, hmAll, hmOnly,
    findFile_congr hmodesAll hmodesOnly heq, ?_⟩
  intro hnone
  have hfilnil : A.filter (containsF f) = [] :=
    List.filter_eq_nil.mpr (fun bl hbl => by
      rw [hnone bl hbl]
      exact Bool.false_ne_true)
  rw [hfilnil] at hgOnly
  have h0 : Except.ok (ε := List Char) (none : Option (List ProfileBlock)) =
      Except.ok (getFileBlocks f cpsOnly) := hgOnly
  injection h0 with h0'
  have hgnone : getFileBlocks f cpsAll = none := heq.trans h0'.symm
  rw [getFileBlocks_eq_findFile] at hgnone
  cases hc : findFile f cpsAll with
  | none => rfl
  | some p =>
    rw [hc] at hgnone
    cases hgnone

/-- Witness for C9 at a concrete input: `b.go` appears in the first run
only; the merge of both runs succeeds and agrees on `b.go` with the merge
of just the first run. -/
theorem C9_missing_file_not_zero_witness :
    ∃ cpsAll cpsOnly,
      mergeProfiles ((([["b.go:5.6,7.8 1 1".data], ["a.go:1.2,3.4 2 1".data]].map
        (fun bl => expectHeader "set" ++ joinLines bl)).map some)) "set" =
        .ok cpsAll ∧
      mergeProfiles ((([["b.go:5.6,7.8 1 1".data],
        ["a.go:1.2,3.4 2 1".data]].filter (containsF ("b.go".data))).map
        (fun bl => expectHeader "set" ++ joinLines bl)).map some) "set" =
        .ok cpsOnly ∧
      findFile ("b.go".data) cpsAll = findFile ("b.go".data) cpsOnly ∧
      ((∀ bl ∈ [["b.go:5.6,7.8 1 1".data], ["a.go:1.2,3.4 2 1".data]],
        containsF ("b.go".data) bl = false) →
        findFile ("b.go".data) cpsAll = none) := by
  apply C9_missing_file_not_zero "set" "set" ("b.go".data)
    [["b.go:5.6,7.8 1 1".data], ["a.go:1.2,3.4 2 1".data]]
    (by rfl) (by decide) (by decide) (by decide)
  intro l₁ hl₁ l₂ hl₂ fn sh₁ c₁ sh₂ c₂ h₁ h₂ hpos
  have eB : parseBlockLine ("b.go:5.6,7.8 1 1".data) =
      some ("b.go".data, (⟨5, 6, 7, 8, 1⟩ : BlockShape), 1) := by rfl
  have eA : parseBlockLine ("a.go:1.2,3.4 2 1".data) =
      some ("a.go".data, (⟨1, 2, 3, 4, 2⟩ : BlockShape), 1) := by rfl
  have hm : ∀ x ∈ ([["b.go:5.6,7.8 1 1".data],
      ["a.go:1.2,3.4 2 1".data]] : List (List (List Char))).join,
      x = "b.go:5.6,7.8 1 1".data ∨ x = "a.go:1.2,3.4 2 1".data := by decide
  rcases hm l₁ hl₁ with rfl | rfl <;> rcases hm l₂ hl₂ with rfl | rfl
  · rw [eB] at h₁ h₂
    simp only [Option.some.injEq, Prod.mk.injEq] at h₁ h₂
    rw [← h₁.2.1, ← h₂.2.1]
  · rw [eB] at h₁
    rw [eA] at h₂
    simp only [Option.some.injEq, Prod.mk.injEq] at h₁ h₂
    exact absurd (h₂.1.trans h₁.1.symm) (by decide)
  · rw [eA] at h₁
    rw [eB] at h₂
    simp only [Option.some.injEq, Prod.mk.injEq] at h₁ h₂
    exact absurd (h₂.1.trans h₁.1.symm) (by decide)
  · rw [eA] at h₁ h₂
    simp only [Option.some.injEq, Prod.mk.injEq] at h₁ h₂
    rw [← h₁.2.1, ← h₂.2.1]

/-- The block lines of a profile list, one list entry per line. -/
def dumpLines (cps : List Profile) : List (List Char) :=
  (cps.map (fun cp => cp.Blocks.map (fun b => blockLine cp.FileName b))).join

theorem dumpBlocks_joinLines (fn : String) : ∀ (bs : List ProfileBlock),
    dumpBlocks fn bs = joinLines (bs.map (fun b => blockLine fn b))
  | [] => rfl
  | b :: bs => by
    rw [dumpBlocks, List.map_cons, joinLines_cons, dumpBlocks_joinLines fn bs]

theorem dumpProfiles_joinLines : ∀ (cps : List Profile),
    dumpProfiles cps = joinLines (dumpLines cps)
  | [] => rfl
  | cp :: cps => by
    rw [dumpProfiles, dumpProfiles_joinLines cps, dumpBlocks_joinLines]
    have hdl : dumpLines (cp :: cps) =
        cp.Blocks.map (fun b => blockLine cp.FileName b) ++ dumpLines cps := by
      simp [dumpLines]
    rw [hdl, joinLines_append]

theorem addBlock_append {mode : String} {sh : BlockShape} {cnt : Nat} :
    ∀ (bs : List ProfileBlock), (∀ b ∈ bs, posOf b ≠ posOfShape sh) →
    addBlock mode sh cnt bs = .ok (bs ++ [mkBlock sh cnt])
  | [], _ => rfl
  | b :: bs, h => by
    rw [addBlock, if_neg (h b (List.mem_cons_self _ _)),
      addBlock_append bs (fun b' hb' => h b' (List.mem_cons_of_mem _ hb'))]
    rfl

theorem insertBlockLine_append {mode : String} {fn : List Char} {sh : BlockShape}
    {cnt : Nat} : ∀ (acc : List Profile),
    (∀ q ∈ acc, lexLt q.FileName.data fn = true) →
    insertBlockLine mode fn sh cnt acc = .ok (acc ++ [⟨⟨fn⟩, mode, [mkBlock sh cnt]⟩])
  | [], _ => rfl
  | p :: ps, h => by
    have hlt := h p (List.mem_cons_self _ _)
    have hne : ¬fn = p.FileName.data := Ne.symm (lexLt_ne hlt)
    have hnlt : ¬lexLt fn p.FileName.data = true := by
      intro h2
      have h3 := lexLt_trans h2 hlt
      rw [lexLt_irrefl] at h3
      cases h3
    rw [insertBlockLine, if_neg hne, if_neg hnlt,
      insertBlockLine_append ps (fun q hq => h q (List.mem_cons_of_mem _ hq))]
    rfl

theorem insertBlockLine_last {mode : String} {fn : List Char} {sh : BlockShape}
    {cnt : Nat} : ∀ (acc₀ : List Profile) (p : Profile),
    p.FileName.data = fn →
    (∀ q ∈ acc₀, lexLt q.FileName.data fn = true) →
    (∀ b ∈ p.Blocks, posOf b ≠ posOfShape sh) →
    insertBlockLine mode fn sh cnt (acc₀ ++ [p]) =
      .ok (acc₀ ++ [{ p with Blocks := p.Blocks ++ [mkBlock sh cnt] }])
  | [], p, hname, _, hspans => by
    rw [List.nil_append, insertBlockLine, if_pos hname.symm,
      addBlock_append p.Blocks hspans]
    rfl
  | q :: acc₀, p, hname, hacc, hspans => by
    have hlt := hacc q (List.mem_cons_self _ _)
    have hne : ¬fn = q.FileName.data := Ne.symm (lexLt_ne hlt)
    have hnlt : ¬lexLt fn q.FileName.data = true := by
      intro h2
      have h3 := lexLt_trans h2 hlt
      rw [lexLt_irrefl] at h3
      cases h3
    rw [List.cons_append, insertBlockLine, if_neg hne, if_neg hnlt,
      insertBlockLine_last acc₀ p hname
        (fun r hr => hacc r (List.mem_cons_of_mem _ hr)) hspans]
    rfl

theorem posOfShape_shapeOfBlock (b : ProfileBlock) :
    posOfShape (shapeOfBlock b) = posOf b := rfl

theorem parseLines_file {m : String} {fn : String} (hfn : fn.data ≠ []) :
    ∀ (bs cur : List ProfileBlock) (acc₀ : List Profile) (ls : List (List Char)),
    (∀ q ∈ acc₀, lexLt q.FileName.data fn.data = true) →
    (∀ b ∈ bs, ∀ b' ∈ cur, posOf b' ≠ posOf b) →
    List.Pairwise (fun b b' => posOf b ≠ posOf b') bs →
    parseLines m (acc₀ ++ [⟨fn, m, cur⟩])
      (bs.map (fun b => blockLine fn b) ++ ls) =
      parseLines m (acc₀ ++ [⟨fn, m, cur ++ bs⟩]) ls
  | [], cur, acc₀, ls, _, _, _ => by simp
  | b :: bs, cur, acc₀, ls, hacc, hcur, hpair => by
    obtain ⟨hhead, htail⟩ := List.pairwise_cons.mp hpair
    rw [List.map_cons, List.cons_append, parseLines,
      parseBlockLine_blockLine fn b hfn]
    have hins := @insertBlockLine_last m fn.data (shapeOfBlock b) b.Count
      acc₀ ⟨fn, m, cur⟩ rfl hacc
      (fun b' hb' => by
        rw [posOfShape_shapeOfBlock]
        exact hcur b (List.mem_cons_self _ _) b' hb')
    show (match insertBlockLine m fn.data (shapeOfBlock b) b.Count
        (acc₀ ++ [⟨fn, m, cur⟩]) with
      | .error e => Except.error e
      | .ok acc' =>
        parseLines m acc' (bs.map (fun b => blockLine fn b) ++ ls)) = _
    rw [hins]
    show parseLines m (acc₀ ++ [⟨fn, m, cur ++ [b]⟩])
      (bs.map (fun b => blockLine fn b) ++ ls) = _
    rw [parseLines_file hfn bs (cur ++ [b]) acc₀ ls hacc
      (by
        intro b2 hb2 b' hb'
        rcases List.mem_append.mp hb' with hb'' | hb''
        · exact hcur b2 (List.mem_cons_of_mem _ hb2) b' hb''
        · rw [show b' = b from by simpa using hb'']
          exact hhead b2 hb2)
      htail]
    rw [List.append_assoc]
    rfl

theorem parseLines_dump {m : String} :
    ∀ (cps : List Profile) (acc₀ : List Profile),
    (∀ q ∈ acc₀, ∀ p ∈ cps, lexLt q.FileName.data p.FileName.data = true) →
    sortedByName cps →
    (∀ p ∈ cps, p.Mode = m ∧ p.Blocks ≠ [] ∧ p.FileName.data ≠ [] ∧
      List.Pairwise (fun b b' => posOf b ≠ posOf b') p.Blocks) →
    parseLines m acc₀ (dumpLines cps) = .ok (acc₀ ++ cps)
  | [], acc₀, _, _, _ => by
    simp [dumpLines, parseLines]
  | p :: cps, acc₀, hacc, hsorted, hwf => by
    obtain ⟨hmode, hbne, hfn, hpairs⟩ := hwf p (List.mem_cons_self _ _)
    obtain ⟨hshead, hstail⟩ := List.pairwise_cons.mp hsorted
    cases hB : p.Blocks with
    | nil => exact absurd hB hbne
    | cons b₀ bs =>
      rw [hB] at hpairs
      obtain ⟨hb₀, hbs⟩ := List.pairwise_cons.mp hpairs
      have hdl : dumpLines (p :: cps) =
          blockLine p.FileName b₀ ::
            (bs.map (fun b => blockLine p.FileName b) ++ dumpLines cps) := by
        simp [dumpLines, hB]
      rw [hdl, parseLines, parseBlockLine_blockLine _ _ hfn]
      have hins := @insertBlockLine_append m p.FileName.data (shapeOfBlock b₀)
        b₀.Count acc₀ (fun q hq => hacc q hq p (List.mem_cons_self _ _))
      show (match insertBlockLine m p.FileName.data (shapeOfBlock b₀) b₀.Count acc₀ with
        | .error e => Except.error e
        | .ok acc' =>
          parseLines m acc' (bs.map (fun b => blockLine p.FileName b) ++
            dumpLines cps)) = _
      rw [hins]
      show parseLines m (acc₀ ++ [⟨p.FileName, m, [b₀]⟩])
        (bs.map (fun b => blockLine p.FileName b) ++ dumpLines cps) = _
      rw [parseLines_file hfn bs [b₀] acc₀ (dumpLines cps)
        (fun q hq => hacc q hq p (List.mem_cons_self _ _))
        (by
          intro b2 hb2 b' hb'
          rw [show b' = b₀ from by simpa using hb']
          exact hb₀ b2 hb2)
        hbs]
      have hpeq : (⟨p.FileName, m, [b₀] ++ bs⟩ : Profile) = p := by
        rw [← hmode, List.singleton_append, ← hB]
      rw [hpeq]
      rw [parseLines_dump cps (acc₀ ++ [p])
        (by
          intro q hq r hr
          rcases List.mem_append.mp hq with hq' | hq'
          · exact hacc q hq' r (List.mem_cons_of_mem _ hr)
          · rw [show q = p from by simpa using hq']
            exact hshead r hr)
        hstail
        (fun r hr => hwf r (List.mem_cons_of_mem _ hr))]
      rw [List.append_assoc]
      rfl

/-- Claim C7: deserializing the reporter's serialized output reproduces
the merged profile exactly — the same files, the same block positions and
statement counts, and the same coverage counts — for every merged profile
in the deserializer's canonical form (one shared non-empty mode, files
strictly sorted by name with non-empty newline-free names, a non-empty
block list per file with pairwise-distinct spans); the empty profile also
round-trips, to an empty result. -/
theorem C7_roundtrip (m : String) (cps : List Profile)
    (hm : ∀ p ∈ cps, p.Mode = m) (hmne : m ≠ "") (hmn : '\n' ∉ m.data)
    (hsorted : sortedByName cps)
    (hwf : ∀ p ∈ cps, p.Blocks ≠ [] ∧ p.FileName.data ≠ [] ∧
      '\n' ∉ p.FileName.data ∧
      List.Pairwise (fun b b' => posOf b ≠ posOf b') p.Blocks) :
    parseProfiles (dumpcp cps) = .ok cps := by
  cases cps with
  | nil => rfl
  | cons c₀ cs =>
    have hd : dumpcp (c₀ :: cs) =
        joinLines (("mode: ".data ++ m.data) :: dumpLines (c₀ :: cs)) := by
      rw [dumpcp, dumpProfiles_joinLines, joinLines_cons,
        hm c₀ (List.mem_cons_self _ _), headerLine]
    have hallnl : ∀ l ∈ ("mode: ".data ++ m.data) :: dumpLines (c₀ :: cs),
        '\n' ∉ l := by
      intro l hl
      rcases List.mem_cons.mp hl with rfl | hl'
      · intro hmem
        rcases List.mem_append.mp hmem with h | h
        · exact absurd h (by decide)
        · exact hmn h
      · obtain ⟨pl, hpl, hlpl⟩ := List.mem_join.mp hl'
        obtain ⟨p, hp, hpl'⟩ := List.mem_map.mp hpl
        subst hpl'
        obtain ⟨b, _, hlb⟩ := List.mem_map.mp hlpl
        subst hlb
        exact newline_not_mem_blockLine (hwf p hp).2.2.1 b
    have hsplit : splitLines (dumpcp (c₀ :: cs)) =
        ("mode: ".data ++ m.data) :: dumpLines (c₀ :: cs) := by
      rw [hd]
      exact splitLines_joinLines hallnl
    rw [parseProfiles_header hsplit hmne]
    rw [parseLines_dump (c₀ :: cs) []
      (by intro q hq; exact absurd hq (List.not_mem_nil q))
      hsorted
      (fun p hp => ⟨hm p hp, (hwf p hp).1, (hwf p hp).2.1, (hwf p hp).2.2.2⟩)]
    rfl

/-- Witness for C7 at a concrete input: a two-file merged profile
round-trips through the wire format unchanged. -/
theorem C7_roundtrip_witness :
    parseProfiles (dumpcp
      [⟨"a.go", "count", [⟨1, 2, 3, 4, 2, 5⟩, ⟨3, 5, 4, 1, 1, 0⟩]⟩,
       ⟨"b.go", "count", [⟨5, 6, 7, 8, 1, 1⟩]⟩]) =
      .ok [⟨"a.go", "count", [⟨1, 2, 3, 4, 2, 5⟩, ⟨3, 5, 4, 1, 1, 0⟩]⟩,
       ⟨"b.go", "count", [⟨5, 6, 7, 8, 1, 1⟩]⟩] :=
  C7_roundtrip "count"
    [⟨"a.go", "count", [⟨1, 2, 3, 4, 2, 5⟩, ⟨3, 5, 4, 1, 1, 0⟩]⟩,
     ⟨"b.go", "count", [⟨5, 6, 7, 8, 1, 1⟩]⟩]
    (by decide) (by decide) (by decide) (by unfold sortedByName; decide)
    (by decide)

end V3

end Goverage
